import Mathlib

/-!
# Verification of the building-blocks storage and octree core

A shallow embedding of the dense-array addressing/traversal code
(`building_blocks_storage/src/array.rs`, `array3.rs`, `transform_map.rs`),
the compression codec wrapper, and the octree spatial index
(`building_blocks_partition/src/octree.rs`), together with proofs about them.

Machine-integer conventions:
* `i32` values are modelled as `Int`; where the source performs an `i32`
  computation whose result is cast to `usize` (`stride_from_point`, extent
  point counts), the wrap-around of the `i32` computation and of the cast are
  modelled explicitly by `wrap32` and `usizeOfI32`.
* `usize` values are modelled as `Nat`.  The `usize` additions and
  multiplications performed by the iteration state machines never overflow in
  any reachable state (all strides are bounded by the array length), so they
  are modelled by plain `Nat` arithmetic.
* A Rust `panic!` (failed `assert!`, out-of-range `Vec` index, `unwrap`) is
  modelled by `Option.none`.
-/

namespace BuildingBlocks

/-- Normalize an unbounded integer to the `i32` value it would wrap to.
Wrapping `i32` addition and multiplication are ring operations followed by
this normalization, so a whole wrapping `i32` expression is the
normalization of its exact value. -/
def wrap32 (v : Int) : Int :=
  (v + 2 ^ 31) % 2 ^ 32 - 2 ^ 31

/-- The `usize` obtained by the Rust cast `v as usize` for an `i32` value `v`
(sign extension to 64 bits, reinterpreted as unsigned). -/
def usizeOfI32 (v : Int) : Nat :=
  (v % 2 ^ 64).toNat

/-- `Point3i` from `building_blocks_core` (the 3-D analogue of the
`PointN([x, y, z])` points in `point2.rs`). -/
structure Point3 where
  x : Int
  y : Int
  z : Int
deriving DecidableEq, Repr

namespace Point3

/-- Componentwise addition (`impl Add for Point3<T>`). -/
def add (p q : Point3) : Point3 := ⟨p.x + q.x, p.y + q.y, p.z + q.z⟩

/-- Componentwise subtraction (`impl Sub for Point3<T>`). -/
def sub (p q : Point3) : Point3 := ⟨p.x - q.x, p.y - q.y, p.z - q.z⟩

/-- Scalar multiplication `p * c` (componentwise, as in `p * edge_len`). -/
def smul (p : Point3) (c : Int) : Point3 := ⟨p.x * c, p.y * c, p.z * c⟩

/-- Componentwise `join` (maximum), as in `point2.rs`. -/
def join (p q : Point3) : Point3 := ⟨max p.x q.x, max p.y q.y, max p.z q.z⟩

/-- Componentwise `meet` (minimum), as in `point2.rs`. -/
def meet (p q : Point3) : Point3 := ⟨min p.x q.x, min p.y q.y, min p.z q.z⟩

/-- Componentwise `le` of the lattice partial order, as in `point2.rs`. -/
def leB (p q : Point3) : Bool := p.x ≤ q.x ∧ p.y ≤ q.y ∧ p.z ≤ q.z

/-- Componentwise strict `lt` of the lattice partial order, as in
`point2.rs`. -/
def ltB (p q : Point3) : Bool := p.x < q.x ∧ p.y < q.y ∧ p.z < q.z

/-- Arithmetic right shift of each component (`right_shift`, `point2.rs`
line 154; an arithmetic shift by `k` is euclidean division by `2 ^ k`). -/
def rightShift (p : Point3) (k : Nat) : Point3 :=
  ⟨p.x / 2 ^ k, p.y / 2 ^ k, p.z / 2 ^ k⟩

/-- `Point3i::corner_offsets`.  Modelled from the spec: `point3.rs` of
`building_blocks_core` is not under `src/`; the ordering is the fixed binary
corner ordering, the 3-D analogue of `Point2i::corner_offsets` in
`point2.rs` (corner `i` has components `(i & 1, (i >> 1) & 1, (i >> 2) & 1)`). -/
def cornerOffsets : List Point3 :=
  [⟨0, 0, 0⟩, ⟨1, 0, 0⟩, ⟨0, 1, 0⟩, ⟨1, 1, 0⟩,
   ⟨0, 0, 1⟩, ⟨1, 0, 1⟩, ⟨0, 1, 1⟩, ⟨1, 1, 1⟩]

end Point3

/-- `Extent3i`: minimum corner plus per-axis shape.  Modelled from the spec:
the extent primitives live in `building_blocks_core` outside `src/`; the spec
defines an extent as minimum point + shape with derived least-upper-bound
corner, point count, intersection and containment. -/
structure Extent3 where
  minimum : Point3
  shape : Point3
deriving DecidableEq, Repr

namespace Extent3

/-- Derived least-upper-bound corner: one past the maximum on each axis. -/
def lub (e : Extent3) : Point3 := e.minimum.add e.shape

/-- Containment of a point: at least the minimum and strictly below the
least upper bound on every axis. -/
def containsB (e : Extent3) (p : Point3) : Bool :=
  e.minimum.leB p && p.ltB e.lub

/-- Intersection: join of the minima and meet of the least upper bounds,
with the shape recovered as `lub - min`. -/
def intersection (a b : Extent3) : Extent3 :=
  let mn := a.minimum.join b.minimum
  let l := a.lub.meet b.lub
  ⟨mn, l.sub mn⟩

/-- Point count: the shape's volume, a non-negative number of lattice
points (zero when the intersection-style shape has a non-positive axis). -/
def numPoints (e : Extent3) : Nat :=
  (e.shape.x * e.shape.y * e.shape.z).toNat

end Extent3

/-- `ArrayN<[i32; 3], T>`: an extent plus a flat value sequence in row-major
order (x fastest). -/
structure Array3 (T : Type) where
  values : List T
  extent : Extent3
deriving DecidableEq, Repr

/-- `ArrayN::new`: asserts that the number of points in the extent matches
the length of the values (`array.rs` line 167); the failed assertion is
`none`. -/
def Array3.new {T : Type} (extent : Extent3) (values : List T) : Option (Array3 T) :=
  if values.length = extent.numPoints then some ⟨values, extent⟩ else none

/-- `Array3::stride_from_point` (`array3.rs` lines 12-14):
`Stride((p.z() * s.y() * s.x() + p.y() * s.x() + p.x()) as usize)`.
The product/sum is an `i32` computation (wrapping), then cast to `usize`. -/
def strideFromPoint (s p : Point3) : Nat :=
  usizeOfI32 (wrap32 (p.z * s.y * s.x + p.y * s.x + p.x))

namespace Array3

variable {T : Type}

/-- Checked access by stride: `&self.values[stride.0]`; an out-of-range
index panics, modelled by `none`. -/
def getRefStride (a : Array3 T) (stride : Nat) : Option T :=
  a.values[stride]?

/-- Checked access by local point: convert to a stride with
`stride_from_point(&self.extent().shape, &p.0)` and read. -/
def getRefLocal (a : Array3 T) (p : Point3) : Option T :=
  a.getRefStride (strideFromPoint a.extent.shape p)

/-- Checked access by global point: `let local_p = *p - self.extent().minimum`
then local access. -/
def getRefPoint (a : Array3 T) (p : Point3) : Option T :=
  a.getRefLocal (p.sub a.extent.minimum)

/-- Mutation through `get_mut` by stride: writing `v` at the referenced cell.
An out-of-range stride panics before any write, modelled by `none`. -/
def setStride (a : Array3 T) (stride : Nat) (v : T) : Option (Array3 T) :=
  if stride < a.values.length then some ⟨a.values.set stride v, a.extent⟩ else none

/-- Mutation through `get_mut` by local point. -/
def setLocal (a : Array3 T) (p : Point3) (v : T) : Option (Array3 T) :=
  a.setStride (strideFromPoint a.extent.shape p) v

/-- Mutation through `get_mut` by global point. -/
def setPoint (a : Array3 T) (p : Point3) (v : T) : Option (Array3 T) :=
  a.setLocal (p.sub a.extent.minimum) v

/-- Well-formedness of a dense array as produced by `ArrayN::new`: the shape
is non-negative, small enough that the `i32` stride multipliers
`shape.y * shape.x` and `shape.z * shape.y * shape.x` do not wrap, and the
value sequence has exactly one element per lattice point. -/
def wf (a : Array3 T) : Prop :=
  0 ≤ a.extent.shape.x ∧ a.extent.shape.x < 2 ^ 31 ∧
    0 ≤ a.extent.shape.y ∧ a.extent.shape.y < 2 ^ 31 ∧
    0 ≤ a.extent.shape.z ∧ a.extent.shape.z < 2 ^ 31 ∧
    a.extent.shape.y * a.extent.shape.x < 2 ^ 31 ∧
    a.extent.shape.z * (a.extent.shape.y * a.extent.shape.x) < 2 ^ 31 ∧
    a.values.length = a.extent.numPoints

instance (a : Array3 T) : Decidable a.wf := by
  unfold wf; infer_instance

end Array3

/-- The half-open integer range `[a, b)` enumerated in increasing order,
as iterated by `for v in a..b`. -/
def rangeI (a b : Int) : List Int :=
  (List.range (b - a).toNat).map fun i : Nat => a + (i : Int)

/-- `Array3ForEachState` (`array3.rs` lines 78-88): the per-axis stride
multipliers, per-axis start offsets and per-axis cursors of the for-each
state machine.  All fields are `usize`. -/
structure Array3ForEachState where
  x_stride : Nat
  y_stride : Nat
  z_stride : Nat
  x_start : Nat
  y_start : Nat
  z_start : Nat
  x_i : Nat
  y_i : Nat
  z_i : Nat
deriving Repr

namespace Array3ForEachState

/-- `Array3ForEachState::new` (`array3.rs` lines 91-110).  The shape
components and the local iteration minimum are `i32` values cast to `usize`;
the `y * x` stride multiplier is an `i32` product cast to `usize`. -/
def new (array_shape : Point3) (iter_min : Point3) : Array3ForEachState :=
  let x_stride := 1
  let y_stride := usizeOfI32 array_shape.x
  let z_stride := usizeOfI32 (wrap32 (array_shape.y * array_shape.x))
  { x_stride, y_stride, z_stride
    x_start := x_stride * usizeOfI32 iter_min.x
    y_start := y_stride * usizeOfI32 iter_min.y
    z_start := z_stride * usizeOfI32 iter_min.z
    x_i := 0, y_i := 0, z_i := 0 }

def stride (s : Array3ForEachState) : Nat := s.x_i

def start_z (s : Array3ForEachState) : Array3ForEachState := { s with z_i := s.z_start }

def start_y (s : Array3ForEachState) : Array3ForEachState := { s with y_i := s.z_i + s.y_start }

def start_x (s : Array3ForEachState) : Array3ForEachState := { s with x_i := s.y_i + s.x_start }

def incr_x (s : Array3ForEachState) : Array3ForEachState := { s with x_i := s.x_i + s.x_stride }

def incr_y (s : Array3ForEachState) : Array3ForEachState := { s with y_i := s.y_i + s.y_stride }

def incr_z (s : Array3ForEachState) : Array3ForEachState := { s with z_i := s.z_i + s.z_stride }

end Array3ForEachState

/-- `Array3::for_each_point_and_stride` (`array3.rs` lines 16-40), with the
callback reified as the list of `(point, stride)` pairs passed to `f`, in
invocation order.  The requested extent is intersected with the array's
extent, translated to local coordinates, and the state machine is stepped
through the `z`/`y`/`x` nested loops. -/
def forEachPointAndStride (array_extent extent : Extent3) : List (Point3 × Nat) :=
  let global_extent := extent.intersection array_extent
  let global_lub := global_extent.lub
  let local_min := global_extent.minimum.sub array_extent.minimum
  let s0 := (Array3ForEachState.new array_extent.shape local_min).start_z
  let res := (rangeI global_extent.minimum.z global_lub.z).foldl
    (fun (acc : Array3ForEachState × List (Point3 × Nat)) z =>
      let sy := acc.1.start_y
      let resy := (rangeI global_extent.minimum.y global_lub.y).foldl
        (fun (accy : Array3ForEachState × List (Point3 × Nat)) y =>
          let sx := accy.1.start_x
          let resx := (rangeI global_extent.minimum.x global_lub.x).foldl
            (fun (accx : Array3ForEachState × List (Point3 × Nat)) x =>
              (accx.1.incr_x, accx.2 ++ [(⟨x, y, z⟩, accx.1.stride)]))
            (sx, accy.2)
          (resx.1.incr_y, resx.2))
        (sy, acc.2)
      (resy.1.incr_z, resy.2))
    (s0, [])
  res.2

/-- The coordinate/value pairs passed to the callback of
`ArrayN::for_each_ref` (`array.rs` lines 518-523): each visited cell yields
its `(point, stride)` coordinates together with
`get_unchecked_ref_release(stride)` (an unchecked read, in bounds by
construction; out-of-bounds reads would be undefined and are modelled by
`default`). -/
def Array3.forEachRefList {T : Type} [Inhabited T] (a : Array3 T) (extent : Extent3) :
    List ((Point3 × Nat) × T) :=
  (forEachPointAndStride a.extent extent).map fun ps => (ps, a.values.getD ps.2 default)

/-- `ArrayN::for_each_mut` (`array.rs` lines 532-537): every visited cell's
value is replaced through the callback, via the same
`for_each_point_and_stride` traversal over a copy of the array's extent. -/
def Array3.forEachMut {T : Type} [Inhabited T] (a : Array3 T) (extent : Extent3)
    (f : Point3 × Nat → T → T) : Array3 T :=
  let array_extent := a.extent
  (forEachPointAndStride array_extent extent).foldl
    (fun acc ps => ⟨acc.values.set ps.2 (f ps (acc.values.getD ps.2 default)), acc.extent⟩) a

/-- The row-major enumeration of the points of an extent, `z` outermost,
then `y`, then `x` (the fixed iteration order of the geometry capability's
`iter_points`, modelled from the spec). -/
def Extent3.iterPoints (e : Extent3) : List Point3 :=
  (rangeI e.minimum.z e.lub.z).flatMap fun z =>
    (rangeI e.minimum.y e.lub.y).flatMap fun y =>
      (rangeI e.minimum.x e.lub.x).map fun x => (⟨x, y, z⟩ : Point3)

/-- Reference closed form of the visited `(point, stride)` pairs: row-major
nesting with `z` outermost, strides advancing by the per-axis multipliers. -/
def forEachSpecList (gmin : Point3) (nx ny nz xst yst zst ys zs : Nat) :
    List (Point3 × Nat) :=
  (List.range nz).flatMap fun k : Nat =>
    (List.range ny).flatMap fun j : Nat =>
      (List.range nx).map fun i : Nat =>
        ((⟨gmin.x + (i : Int), gmin.y + (j : Int), gmin.z + (k : Int)⟩ : Point3),
          (zst + k * zs + yst + j * ys + xst + i * 1 : Nat))

/-- `TransformMap` (`transform_map.rs` lines 55-58): a view holding a
delegate map and a value transform.  The embedding instantiates the delegate
with the dense array, the only map variant whose accessors are modelled
here. -/
structure TransformMap (T S : Type) where
  delegate : Array3 T
  transform : T → S

namespace TransformMap

variable {T S : Type}

/-- `Get for TransformMap`: `(self.transform)(self.delegate.get(c))`, by
stride coordinate; the delegate's panic propagates. -/
def getStride (m : TransformMap T S) (c : Nat) : Option S :=
  (m.delegate.getRefStride c).map m.transform

/-- `Get for TransformMap` at a local-point coordinate. -/
def getLocal (m : TransformMap T S) (c : Point3) : Option S :=
  (m.delegate.getRefLocal c).map m.transform

/-- `Get for TransformMap` at a global-point coordinate. -/
def getPoint (m : TransformMap T S) (c : Point3) : Option S :=
  (m.delegate.getRefPoint c).map m.transform

/-- `ForEachRef for TransformMap` (`transform_map.rs` lines 140-143):
`self.delegate.for_each_ref(extent, |c, t| f(c, (self.transform)(t)))`. -/
def forEachRefList [Inhabited T] (m : TransformMap T S) (extent : Extent3) :
    List ((Point3 × Nat) × S) :=
  (m.delegate.forEachRefList extent).map fun ct => (ct.1, m.transform ct.2)

end TransformMap

/-- `FastLz4` compression parameters: the effort level. -/
structure FastLz4 where
  level : Nat
deriving DecidableEq, Repr

/-- `FastLz4CompressedArrayN`: the compressed byte blob plus the original
extent; carries no live values. -/
structure FastLz4CompressedArray3 (T : Type) where
  compressed_bytes : List Nat
  extent : Extent3
deriving DecidableEq, Repr

/-- `Compressible<FastLz4> for ArrayN::compress` (`array.rs` lines 712-745).
Modelled from the spec: the raw byte reinterpretation of the value sequence
(an `unsafe` memory view, valid for plain-data `T`) is the abstract
serialization `ser`, and the external LZ4 encoder is the abstract
byte-to-byte function `enc` at the given level; both live outside `src/`.
The result pairs the encoded bytes with the original extent. -/
def Array3.compress {T : Type} (ser : List T → List Nat)
    (enc : Nat → List Nat → List Nat) (params : FastLz4) (a : Array3 T) :
    FastLz4CompressedArray3 T :=
  { compressed_bytes := enc params.level (ser a.values), extent := a.extent }

/-- `Decompressible<FastLz4>::decompress` (`array.rs` lines 686-710).
Modelled from the spec: allocates exactly `num_points` values, decodes the
blob with the external LZ4 decoder `dec` and reads values back through the
abstract deserialization `deser` (the inverse byte reinterpretation); any
cell the decoded stream does not reach keeps its unspecified allocation
value, modelled by `default`.  The reconstructed array reuses the recorded
extent, so its value count matches the extent by construction, as in the
source's `ArrayN::new(self.extent, decompressed_values)`. -/
def FastLz4CompressedArray3.decompress {T : Type} [Inhabited T]
    (deser : List Nat → List T) (dec : List Nat → List Nat)
    (c : FastLz4CompressedArray3 T) : Array3 T :=
  let decoded := deser (dec c.compressed_bytes)
  { values := (List.range c.extent.numPoints).map fun i => decoded.getD i default
    extent := c.extent }

/-! ### Octree -/

namespace LocationCode

/-- `LocationCode::extend` (`octree.rs` line 254): `self.0 << 3` on a `u16`,
wrapping modulo `2 ^ 16`. -/
def extend (c : Nat) : Nat := (c <<< 3) % 2 ^ 16

/-- `LocationCode::with_lowest_octant` (`octree.rs` line 258):
`self.0 | octant`. -/
def withLowestOctant (c octant : Nat) : Nat := c ||| octant

end LocationCode

/-- The `Octree` (`octree.rs` lines 16-23): extent, root level, root
existence flag, and the location-code-to-child-bitmask node mapping.  The
`FnvHashMap` is modelled as the association list of its insertions in
order; every key is inserted at most once (see the node-mapping theorems),
so association-list lookup coincides with hash-map lookup. -/
structure Octree where
  extent : Extent3
  root_level : Nat
  root_exists : Bool
  nodes : List (Nat × Nat)
deriving DecidableEq, Repr

/-- Hash-map lookup `self.nodes.get(&location)` on the association-list
model. -/
def lookupNode (nodes : List (Nat × Nat)) (location : Nat) : Option Nat :=
  (nodes.find? fun kv => kv.1 == location).map Prod.snd

/-- One iteration of the
`for (octant, offset) in octant_corner_strides.iter().enumerate()` loop of
`partition_array` (`octree.rs` lines 88-100): visit the child octant at the
given (index, corner-stride-offset) pair and fold its existence bit into the
child bitmask, threading the node mapping.  `child` is the recursive call at
the halved edge length, taking the child location, child minimum stride and
the mapping. -/
def partitionChildStep (child : Nat → Nat → List (Nat × Nat) → Bool × List (Nat × Nat))
    (extended minimum : Nat) (acc : Nat × List (Nat × Nat)) (oo : Nat × Nat) :
    Nat × List (Nat × Nat) :=
  let octantMin := minimum + oo.2
  let octantLocation := LocationCode.withLowestOctant extended oo.1
  let r := child octantLocation octantMin acc.2
  (acc.1 ||| (cond r.1 1 0) <<< oo.1, r.2)

/-- `Octree::partition_array` (`octree.rs` lines 65-110).  The source passes
the octant's edge length, which is `2 ^ power` at the root and is halved at
each level; the embedding passes its exponent `k` (so the edge length is
`2 ^ k` and the recursion is structural), with the base case `k = 0` the
source's `edge_len == 1`.  A single voxel exists iff the source value is not
empty.  Otherwise the eight octants are partitioned with halved corner
strides, the child bitmask is accumulated by the enumerated corner loop, and
the node is recorded iff it exists and is not a full leaf
(`child_bitmask != 0xff`). -/
def partitionArray {T : Type} [Inhabited T] (isEmpty : T → Bool)
    (array : Array3 T) (location minimum : Nat) (k : Nat)
    (cornerStrides : List Nat) (nodes : List (Nat × Nat)) :
    Bool × List (Nat × Nat) :=
  match k with
  | 0 => (!isEmpty (array.values.getD minimum default), nodes)
  | j + 1 =>
      let octantCornerStrides := cornerStrides.map fun c => c >>> 1
      let extended := LocationCode.extend location
      let res := octantCornerStrides.enum.foldl
        (partitionChildStep
          (fun loc mn nds =>
            partitionArray isEmpty array loc mn j octantCornerStrides nds)
          extended minimum)
        (0, nodes)
      let childBitmask := res.1
      let isLeaf := childBitmask == 0xff
      let octantGiven := childBitmask != 0
      (octantGiven,
        if octantGiven && !isLeaf then res.2 ++ [(location, childBitmask)] else res.2)

/-- `Octree::from_array` (`octree.rs` lines 29-63): asserts
`0 < power && power <= 6` and the cube shape `[edge_len; 3]` (failed
assertions are `none`), computes the scaled corner offsets, converts them to
strides, and partitions from the root location `1` at stride `0`. -/
def Octree.fromArray {T : Type} [Inhabited T] (isEmpty : T → Bool)
    (power : Nat) (array : Array3 T) : Option Octree :=
  if !(decide (0 < power) && decide (power ≤ 6)) then none
  else
    let root_level := power - 1
    let edge_len : Int := 2 ^ power
    if array.extent.shape ≠ (⟨edge_len, edge_len, edge_len⟩ : Point3) then none
    else
      let corner_offsets := Point3.cornerOffsets.map fun p => p.smul edge_len
      let corner_strides := corner_offsets.map fun p =>
        strideFromPoint array.extent.shape p
      let res := partitionArray isEmpty array 1 0 power corner_strides []
      some { extent := array.extent, root_level, root_exists := res.1,
             nodes := res.2 }

/-- `Octree::edge_length` (`octree.rs` line 113): `1 << (root_level + 1)`. -/
def Octree.edgeLength (t : Octree) : Nat := 2 ^ (t.root_level + 1)

/-- `VisitStatus` (`octree.rs` lines 276-283). -/
inductive VisitStatus where
  | Continue
  | Stop
  | ExitEarly
deriving DecidableEq, Repr

/-- `Octant` (`octree.rs` lines 265-268): a cube octant given by its minimum
and edge length. -/
structure Octant where
  minimum : Point3
  edge_length : Int
deriving DecidableEq, Repr

/-- The set of points spanned by an octant (the cube
`[minimum, minimum + edge_length)^3`), used to state which points a visited
octant covers. -/
def Octant.containsB (o : Octant) (p : Point3) : Bool :=
  o.minimum.leB p &&
    p.ltB (o.minimum.add ⟨o.edge_length, o.edge_length, o.edge_length⟩)

/-- One iteration of the
`for (octant, offset) in octant_corner_offsets.iter().enumerate()` loop of
`_visit` (`octree.rs` lines 208-226), with the loop's early return encoded by
passing an `ExitEarly` accumulator through unchanged: skip children whose
bitmask bit is unset, recurse into present ones, short-circuit the whole
traversal on `ExitEarly`, and otherwise continue the loop with only the
updated state (any other child status is discarded). -/
def visitChildStep {σ : Type} (child : Nat → Point3 → σ → σ × VisitStatus)
    (childBitmask : Nat) (acc : σ × VisitStatus) (oo : Nat × Point3) :
    σ × VisitStatus :=
  if acc.2 = VisitStatus.ExitEarly then acc
  else if childBitmask &&& (1 <<< oo.1) == 0 then acc
  else
    let r := child oo.1 oo.2 acc.1
    if r.2 = VisitStatus.ExitEarly then (r.1, VisitStatus.ExitEarly)
    else (r.1, VisitStatus.Continue)

/-- `Octree::_visit` (`octree.rs` lines 150-230).  As in `partitionArray`,
the embedding passes the exponent `k` of the octant's edge length `2 ^ k`.
The stateful `&mut impl OctreeVisitor` is modelled as a state-passing
function `σ → Octant → Bool → σ × VisitStatus`.  A single voxel is a leaf; a
missing node entry is an implicit full leaf; otherwise the visitor is
invoked with `is_leaf = false` and, unless it returns a status other than
`Continue`, the children whose bitmask bit is set are visited in octant
order, short-circuiting on `ExitEarly`, and the traversal of this subtree
otherwise ends in `Continue`. -/
def visitRec {σ : Type} (t : Octree)
    (visitor : σ → Octant → Bool → σ × VisitStatus) (location : Nat)
    (minimum : Point3) (k : Nat) (cornerOffsets : List Point3) (s : σ) :
    σ × VisitStatus :=
  match k with
  | 0 => visitor s ⟨minimum, 1⟩ true
  | j + 1 =>
      match lookupNode t.nodes location with
      | none => visitor s ⟨minimum, (2 ^ (j + 1) : Int)⟩ true
      | some childBitmask =>
          let res := visitor s ⟨minimum, (2 ^ (j + 1) : Int)⟩ false
          if res.2 ≠ VisitStatus.Continue then res
          else
            let octantCornerOffsets := cornerOffsets.map fun p => p.rightShift 1
            let extended := LocationCode.extend location
            octantCornerOffsets.enum.foldl
              (visitChildStep
                (fun oct off st =>
                  visitRec t visitor (LocationCode.withLowestOctant extended oct)
                    (minimum.add off) j octantCornerOffsets st)
                childBitmask)
              (res.1, VisitStatus.Continue)

/-- `Octree::visit` (`octree.rs` lines 135-148): an empty octree visits
nothing and returns `Continue`; otherwise traversal starts at the root
location `1` with the scaled corner offsets. -/
def Octree.visit {σ : Type} (t : Octree)
    (visitor : σ → Octant → Bool → σ × VisitStatus) (s : σ) :
    σ × VisitStatus :=
  if !t.root_exists then (s, VisitStatus.Continue)
  else
    let minimum := t.extent.minimum
    let edge_len := t.edgeLength
    let corner_offsets := Point3.cornerOffsets.map fun p =>
      p.smul (edge_len : Int)
    visitRec t visitor 1 minimum (t.root_level + 1) corner_offsets s

/-- The collecting traversal: run `visit` with a visitor that records every
`(octant, is_leaf)` invocation and always continues. -/
def Octree.visitCollect (t : Octree) : List (Octant × Bool) :=
  (t.visit (fun s oct leaf => (s ++ [(oct, leaf)], VisitStatus.Continue)) []).1

/-- The instrumentation of a visitor: it behaves as `v` on the first state
component and additionally appends every invocation
`(octant, is_leaf, returned status)` to a trace. -/
def instr {σ : Type} (v : σ → Octant → Bool → σ × VisitStatus) :
    σ × List (Octant × Bool × VisitStatus) → Octant → Bool →
      (σ × List (Octant × Bool × VisitStatus)) × VisitStatus :=
  fun sp oct leaf =>
    ((((v sp.1 oct leaf).1, sp.2 ++ [(oct, leaf, (v sp.1 oct leaf).2)])),
      (v sp.1 oct leaf).2)

/-- C1 failing input: the `4 × 4 × 4` occupancy array that is full except
for the single voxel at the minimum `(0, 0, 0)` (stride `0`). -/
def c1Array : Array3 Bool :=
  { values := false :: List.replicate 63 true
    extent := { minimum := ⟨0, 0, 0⟩, shape := ⟨4, 4, 4⟩ } }

/-- C6 counterexample input: a `4 × 4 × 4` array (minimum `(0, 0, 0)`)
holding `7` everywhere. -/
def c6Array : Array3 Nat :=
  { values := List.replicate 64 7
    extent := { minimum := ⟨0, 0, 0⟩, shape := ⟨4, 4, 4⟩ } }

/-- Witness input: a `2 × 2 × 2` dense array with distinct values. -/
def c2Array : Array3 Nat :=
  { values := [10, 11, 12, 13, 14, 15, 16, 17]
    extent := { minimum := ⟨0, 0, 0⟩, shape := ⟨2, 2, 2⟩ } }

/-- Witness input: a requested extent overlapping `c2Array` partially. -/
def c2Extent : Extent3 :=
  { minimum := ⟨1, 0, 0⟩, shape := ⟨5, 5, 5⟩ }

/-- Witness input: a `2 × 1 × 1` dense array for the compression
round-trip. -/
def c3Array : Array3 Nat :=
  { values := [5, 6]
    extent := { minimum := ⟨3, 4, 5⟩, shape := ⟨2, 1, 1⟩ } }

/-- A trace `δ` of visitor invocations with final status `st` is
well-formed for early exit: any invocation that returned `ExitEarly` is the
last invocation of the trace, and then the traversal's result is
`ExitEarly`. -/
def TraceOk (δ : List (Octant × Bool × VisitStatus)) (st : VisitStatus) : Prop :=
  ∀ d1 e d2, δ = d1 ++ e :: d2 → e.2.2 = VisitStatus.ExitEarly →
    d2 = [] ∧ st = VisitStatus.ExitEarly

/-- Witness octree for the traversal-status theorem: the octree of the
single voxel at the origin of a `2 × 2 × 2` cube (root bitmask `1`). -/
def c9Tree : Octree :=
  { extent := { minimum := ⟨0, 0, 0⟩, shape := ⟨2, 2, 2⟩ }
    root_level := 0
    root_exists := true
    nodes := [(1, 1)] }

/-- Witness visitor: counts invocations and always exits early. -/
def c9Visitor : Nat → Octant → Bool → Nat × VisitStatus :=
  fun s _ _ => (s + 1, VisitStatus.ExitEarly)

/-- The location code the build and visit recursions assign to the octant
reached by the path of octant indices `path` from the root: the root code is
`1` and each descent extends the code by 3 bits and ORs in the octant index
(`octree.rs` lines 252-259). -/
def codeOfPath (path : List Nat) : Nat :=
  path.foldl (fun c o => LocationCode.withLowestOctant (LocationCode.extend c) o) 1

/-- The exact (unwrapped) base-8 path value: a leading `1` followed by the
octant digits. -/
def pathToNum (path : List Nat) : Nat :=
  path.foldl (fun c o => c * 8 + o) 1

/-- Decode a base-8 path value back into its digits (dropping the leading
`1`). -/
def decodePath (v : Nat) : List Nat :=
  if v < 8 then [] else decodePath (v / 8) ++ [v % 8]

/-! ### Specification-side octree predicates -/

/-- The occupancy the build reads at the local point `(x, y, z)` of a cube of
edge `e`: the source value at the row-major stride `z*e*e + y*e + x` is not
empty (an out-of-range stride yields the unreachable `default`). -/
def localOccB {T : Type} [Inhabited T] (isEmpty : T → Bool) (array : Array3 T)
    (e x y z : Nat) : Bool :=
  !isEmpty (array.values.getD (z * e * e + y * e + x) default)

/-- Whether the cube octant with minimum local corner `(x, y, z)` and edge
`2 ^ k` contains an occupied point. -/
def octantExistsB (occ : Nat → Nat → Nat → Bool) (k x y z : Nat) : Bool :=
  (List.range (2 ^ k)).any fun dz =>
    (List.range (2 ^ k)).any fun dy =>
      (List.range (2 ^ k)).any fun dx => occ (x + dx) (y + dy) (z + dz)

/-- Whether child octant `o` (of the octant with corner `(x, y, z)` and edge
`2 ^ (j + 1)`) is non-empty; the child corner follows the fixed binary
corner ordering. -/
def childExistsBit (occ : Nat → Nat → Nat → Bool) (j x y z o : Nat) : Bool :=
  octantExistsB occ j (x + o % 2 * 2 ^ j) (y + o / 2 % 2 * 2 ^ j)
    (z + o / 4 % 2 * 2 ^ j)

/-- The 8-bit child bitmask accumulated by the build loop: bit `o` is set
iff child `o` exists. -/
def octantMaskB (bit : Nat → Bool) : Nat :=
  (List.range 8).foldl (fun bm o => bm ||| (cond (bit o) 1 0) <<< o) 0

/-- The stride offset of corner `o` of an octant of edge `2 ^ (k + 1)`
inside the cube of edge `e`: corner `o` scaled by the half edge `2 ^ k`. -/
def cornerStrideO (e k o : Nat) : Nat :=
  o / 4 % 2 * 2 ^ k * e * e + o / 2 % 2 * 2 ^ k * e + o % 2 * 2 ^ k

/-- The eight corner strides at scale `2 ^ k` inside the cube of edge `e`. -/
def cornerStridesSpec (e k : Nat) : List Nat :=
  (List.range 8).map (cornerStrideO e k)

/-- The node-mapping entries `partition_array` records for the subtree of
the octant with code `loc`, corner `(x, y, z)` and edge `2 ^ k`, in
insertion order (children in octant order, then the node itself iff it
exists and is not a full leaf). -/
def specEntries (occ : Nat → Nat → Nat → Bool) :
    Nat → Nat → Nat → Nat → Nat → List (Nat × Nat)
  | 0, _, _, _, _ => []
  | j + 1, loc, x, y, z =>
      ((List.range 8).flatMap fun o =>
        specEntries occ j (LocationCode.withLowestOctant (LocationCode.extend loc) o)
          (x + o % 2 * 2 ^ j) (y + o / 2 % 2 * 2 ^ j) (z + o / 4 % 2 * 2 ^ j)) ++
      (if octantMaskB (childExistsBit occ j x y z) != 0 &&
          !(octantMaskB (childExistsBit occ j x y z) == 0xff) then
        [(loc, octantMaskB (childExistsBit occ j x y z))]
      else [])

/-- Extending a location code along a path of octant indices. -/
def codeAppend (loc : Nat) (path : List Nat) : Nat :=
  path.foldl (fun c o => LocationCode.withLowestOctant (LocationCode.extend c) o) loc

/-- The local minimum corner of the octant reached by descending `path`
from an octant with corner `(x, y, z)` and edge `2 ^ k`. -/
def pathCorner : Nat → List Nat → Nat → Nat → Nat → Nat × Nat × Nat
  | _, [], x, y, z => (x, y, z)
  | 0, _ :: _, x, y, z => (x, y, z)
  | j + 1, o :: rest, x, y, z =>
      pathCorner j rest (x + o % 2 * 2 ^ j) (y + o / 2 % 2 * 2 ^ j)
        (z + o / 4 % 2 * 2 ^ j)

/-- Witness input for the node-map invariant: a `2 x 2 x 2` occupancy array
(power `1`) whose only occupied voxel is `(0, 0, 0)`. -/
def c5Array : Array3 Nat :=
  { values := [1, 0, 0, 0, 0, 0, 0, 0],
    extent := { minimum := ⟨0, 0, 0⟩, shape := ⟨2, 2, 2⟩ } }

/-- The octree `Octree::from_array` builds from `c5Array`: the root exists
and the single stored node is the root code `1` with child bitmask `1`. -/
def c5Tree : Octree :=
  { extent := { minimum := ⟨0, 0, 0⟩, shape := ⟨2, 2, 2⟩ },
    root_level := 0, root_exists := true, nodes := [(1, 1)] }

/-! ### Characterization of the for-each state machine -/

theorem wrap32_eq_of_bounds {v : Int} (h0 : -2 ^ 31 ≤ v) (h1 : v < 2 ^ 31) :
    wrap32 v = v := by
  unfold wrap32
  have : (v + 2 ^ 31) % 2 ^ 32 = v + 2 ^ 31 := Int.emod_eq_of_lt (by omega) (by omega)
  omega

theorem usizeOfI32_eq_toNat {v : Int} (h0 : 0 ≤ v) (h1 : v < 2 ^ 63) :
    usizeOfI32 v = v.toNat := by
  unfold usizeOfI32
  have : v % 2 ^ 64 = v := Int.emod_eq_of_lt h0 (by omega)
  omega

theorem foldl_incr_x (y z ax : Int) (n : Nat)
    (xs ys zs xst yst zst xi yi zi : Nat) (acc : List (Point3 × Nat)) :
    ((List.range n).map (fun i : Nat => ax + (i : Int))).foldl
      (fun (accx : Array3ForEachState × List (Point3 × Nat)) x =>
        (accx.1.incr_x, accx.2 ++ [(⟨x, y, z⟩, accx.1.stride)]))
      (⟨xs, ys, zs, xst, yst, zst, xi, yi, zi⟩, acc) =
    (⟨xs, ys, zs, xst, yst, zst, xi + n * xs, yi, zi⟩,
      acc ++ (List.range n).map fun i => (⟨ax + (i : Int), y, z⟩, xi + i * xs)) := by
  induction n generalizing acc with
  | zero => simp
  | succ n ih =>
      rw [List.range_succ, List.map_append, List.foldl_append, ih]
      simp only [List.map_append, List.foldl_cons, List.foldl_nil, List.map_cons,
        List.map_nil, Array3ForEachState.incr_x, Array3ForEachState.stride,
        List.append_assoc, List.range_succ]
      simp [Nat.succ_mul, Nat.add_assoc]

theorem foldl_incr_y (z ay ax : Int) (ny nx : Nat)
    (xs ys zs xst yst zst xi yi zi : Nat) (acc : List (Point3 × Nat)) :
    ∃ xi2 : Nat,
      ((List.range ny).map (fun j : Nat => ay + (j : Int))).foldl
        (fun (accy : Array3ForEachState × List (Point3 × Nat)) y =>
          let sx := accy.1.start_x
          let resx := ((List.range nx).map (fun i : Nat => ax + (i : Int))).foldl
            (fun (accx : Array3ForEachState × List (Point3 × Nat)) x =>
              (accx.1.incr_x, accx.2 ++ [(⟨x, y, z⟩, accx.1.stride)]))
            (sx, accy.2)
          (resx.1.incr_y, resx.2))
        (⟨xs, ys, zs, xst, yst, zst, xi, yi, zi⟩, acc) =
      (⟨xs, ys, zs, xst, yst, zst, xi2, yi + ny * ys, zi⟩,
        acc ++ (List.range ny).flatMap fun j =>
          (List.range nx).map fun i =>
            (⟨ax + (i : Int), ay + (j : Int), z⟩, yi + j * ys + xst + i * xs)) := by
  induction ny generalizing acc with
  | zero => exact ⟨xi, by simp⟩
  | succ ny ih =>
      obtain ⟨xi2, h⟩ := ih acc
      rw [List.range_succ, List.map_append, List.foldl_append, h]
      refine ⟨yi + ny * ys + xst + nx * xs, ?_⟩
      simp only [List.map_cons, List.map_nil, List.foldl_cons, List.foldl_nil,
        Array3ForEachState.start_x, foldl_incr_x, Array3ForEachState.incr_y,
        List.flatMap_append, List.flatMap_cons, List.flatMap_nil]
      simp [Nat.succ_mul, Nat.add_assoc, List.append_assoc]

theorem foldl_incr_z (az ay ax : Int) (nz ny nx : Nat)
    (xs ys zs xst yst zst xi yi zi : Nat) (acc : List (Point3 × Nat)) :
    ∃ xi2 yi2 : Nat,
      ((List.range nz).map (fun k : Nat => az + (k : Int))).foldl
        (fun (accz : Array3ForEachState × List (Point3 × Nat)) z =>
          let sy := accz.1.start_y
          let resy := ((List.range ny).map (fun j : Nat => ay + (j : Int))).foldl
            (fun (accy : Array3ForEachState × List (Point3 × Nat)) y =>
              let sx := accy.1.start_x
              let resx := ((List.range nx).map (fun i : Nat => ax + (i : Int))).foldl
                (fun (accx : Array3ForEachState × List (Point3 × Nat)) x =>
                  (accx.1.incr_x, accx.2 ++ [(⟨x, y, z⟩, accx.1.stride)]))
                (sx, accy.2)
              (resx.1.incr_y, resx.2))
            (sy, accz.2)
          (resy.1.incr_z, resy.2))
        (⟨xs, ys, zs, xst, yst, zst, xi, yi, zi⟩, acc) =
      (⟨xs, ys, zs, xst, yst, zst, xi2, yi2, zi + nz * zs⟩,
        acc ++ (List.range nz).flatMap fun k =>
          (List.range ny).flatMap fun j =>
            (List.range nx).map fun i =>
              (⟨ax + (i : Int), ay + (j : Int), az + (k : Int)⟩,
                zi + k * zs + yst + j * ys + xst + i * xs)) := by
  induction nz generalizing acc with
  | zero => exact ⟨xi, yi, by simp⟩
  | succ nz ih =>
      obtain ⟨xi2, yi2, h⟩ := ih acc
      rw [List.range_succ, List.map_append, List.foldl_append, h]
      simp only [List.map_cons, List.map_nil, List.foldl_cons, List.foldl_nil,
        Array3ForEachState.start_y]
      obtain ⟨xi3, h3⟩ := foldl_incr_y ((az + (nz : Int))) ay ax ny nx xs ys zs xst yst zst
        xi2 (zi + nz * zs + yst) (zi + nz * zs)
        (acc ++ (List.range nz).flatMap fun k =>
          (List.range ny).flatMap fun j =>
            (List.range nx).map fun i =>
              (⟨ax + (i : Int), ay + (j : Int), az + (k : Int)⟩,
                zi + k * zs + yst + j * ys + xst + i * xs))
      rw [h3]
      simp only [Array3ForEachState.incr_z]
      refine ⟨xi3, zi + nz * zs + yst + ny * ys, ?_⟩
      simp only [List.flatMap_append, List.flatMap_cons, List.flatMap_nil]
      simp [Nat.succ_mul, Nat.add_assoc, List.append_assoc]

/-- The machine traversal equals the reference closed form: points of the
clipped extent in row-major order (`z` outermost), with each stride the
linear combination of the local coordinates and the shape-derived
multipliers. -/
theorem forEachPointAndStride_eq (array_extent extent : Extent3) :
    forEachPointAndStride array_extent extent =
      forEachSpecList (extent.intersection array_extent).minimum
        ((extent.intersection array_extent).lub.x -
          (extent.intersection array_extent).minimum.x).toNat
        ((extent.intersection array_extent).lub.y -
          (extent.intersection array_extent).minimum.y).toNat
        ((extent.intersection array_extent).lub.z -
          (extent.intersection array_extent).minimum.z).toNat
        (1 * usizeOfI32 ((extent.intersection array_extent).minimum.x -
          array_extent.minimum.x))
        (usizeOfI32 array_extent.shape.x *
          usizeOfI32 ((extent.intersection array_extent).minimum.y -
            array_extent.minimum.y))
        (usizeOfI32 (wrap32 (array_extent.shape.y * array_extent.shape.x)) *
          usizeOfI32 ((extent.intersection array_extent).minimum.z -
            array_extent.minimum.z))
        (usizeOfI32 array_extent.shape.x)
        (usizeOfI32 (wrap32 (array_extent.shape.y * array_extent.shape.x))) := by
  unfold forEachPointAndStride forEachSpecList rangeI
  simp only [Array3ForEachState.new, Array3ForEachState.start_z, Point3.sub]
  obtain ⟨xi2, yi2, h⟩ := foldl_incr_z
    (extent.intersection array_extent).minimum.z
    (extent.intersection array_extent).minimum.y
    (extent.intersection array_extent).minimum.x
    ((extent.intersection array_extent).lub.z -
      (extent.intersection array_extent).minimum.z).toNat
    ((extent.intersection array_extent).lub.y -
      (extent.intersection array_extent).minimum.y).toNat
    ((extent.intersection array_extent).lub.x -
      (extent.intersection array_extent).minimum.x).toNat
    1 (usizeOfI32 array_extent.shape.x)
    (usizeOfI32 (wrap32 (array_extent.shape.y * array_extent.shape.x)))
    (1 * usizeOfI32 ((extent.intersection array_extent).minimum.x -
      array_extent.minimum.x))
    (usizeOfI32 array_extent.shape.x *
      usizeOfI32 ((extent.intersection array_extent).minimum.y -
        array_extent.minimum.y))
    (usizeOfI32 (wrap32 (array_extent.shape.y * array_extent.shape.x)) *
      usizeOfI32 ((extent.intersection array_extent).minimum.z -
        array_extent.minimum.z))
    0 0
    (usizeOfI32 (wrap32 (array_extent.shape.y * array_extent.shape.x)) *
      usizeOfI32 ((extent.intersection array_extent).minimum.z -
        array_extent.minimum.z))
    []
  rw [h]
  simp

theorem mem_rangeI {a b v : Int} : v ∈ rangeI a b ↔ a ≤ v ∧ v < b := by
  unfold rangeI
  simp only [List.mem_map, List.mem_range]
  constructor
  · rintro ⟨i, hi, rfl⟩; omega
  · rintro ⟨h1, h2⟩; exact ⟨(v - a).toNat, by omega, by omega⟩

theorem nodup_rangeI (a b : Int) : (rangeI a b).Nodup :=
  List.Nodup.map (fun i j h => by omega) (List.nodup_range _)

theorem mem_iterPoints {e : Extent3} {p : Point3} :
    p ∈ e.iterPoints ↔ e.containsB p = true := by
  unfold Extent3.iterPoints
  simp only [List.mem_flatMap, List.mem_map, mem_rangeI, Extent3.containsB,
    Point3.leB, Point3.ltB, Extent3.lub, Point3.add, Bool.and_eq_true,
    decide_eq_true_eq]
  constructor
  · rintro ⟨z, hz, y, hy, x, hx, rfl⟩
    simp only []
    omega
  · rintro ⟨⟨h1, h2, h3⟩, h4, h5, h6⟩
    exact ⟨p.z, by omega, p.y, by omega, p.x, by omega, rfl⟩

theorem nodup_iterPoints (e : Extent3) : e.iterPoints.Nodup := by
  unfold Extent3.iterPoints
  rw [List.nodup_flatMap]
  refine ⟨fun z _ => ?_, ?_⟩
  · rw [List.nodup_flatMap]
    refine ⟨fun y _ => List.Nodup.map (fun x1 x2 h => by cases h; rfl) (nodup_rangeI _ _), ?_⟩
    refine List.Pairwise.imp_of_mem ?_ (nodup_rangeI _ _)
    intro y1 y2 _ _ hne p hp1 hp2
    simp only [Function.onFun, List.mem_map] at hp1 hp2
    obtain ⟨x1, _, rfl⟩ := hp1
    obtain ⟨x2, _, h⟩ := hp2
    cases h
    exact hne rfl
  · refine List.Pairwise.imp_of_mem ?_ (nodup_rangeI _ _)
    intro z1 z2 _ _ hne p hp1 hp2
    simp only [Function.onFun, List.mem_flatMap, List.mem_map] at hp1 hp2
    obtain ⟨y1, _, x1, _, rfl⟩ := hp1
    obtain ⟨y2, _, x2, _, h⟩ := hp2
    cases h
    exact hne rfl

theorem Extent3.lub_intersection (a b : Extent3) :
    (a.intersection b).lub = a.lub.meet b.lub := by
  simp only [lub, intersection, Point3.add, Point3.sub, Point3.join, Point3.meet]
  simp only [Point3.mk.injEq]
  refine ⟨by omega, by omega, by omega⟩

theorem Extent3.containsB_intersection (a b : Extent3) (p : Point3) :
    ((a.intersection b).containsB p = true) ↔
      (a.containsB p = true ∧ b.containsB p = true) := by
  simp only [containsB, Point3.leB, Point3.ltB, lub, intersection, Point3.add,
    Point3.sub, Point3.join, Point3.meet, Bool.and_eq_true, decide_eq_true_eq]
  omega

theorem forEach_map_fst (array_extent extent : Extent3) :
    (forEachPointAndStride array_extent extent).map Prod.fst =
      (extent.intersection array_extent).iterPoints := by
  rw [forEachPointAndStride_eq]
  unfold forEachSpecList Extent3.iterPoints rangeI
  simp only [List.map_flatMap, List.flatMap_map, List.map_map, Function.comp]
  rfl

theorem stride_formula_bounds {sx sy sz lx ly lz : Int}
    (hx0 : 0 ≤ lx) (hx : lx < sx) (hy0 : 0 ≤ ly) (hy : ly < sy)
    (hz0 : 0 ≤ lz) (hz : lz < sz) :
    0 ≤ lz * (sy * sx) + ly * sx + lx ∧
      lz * (sy * sx) + ly * sx + lx < sz * (sy * sx) := by
  have hsx : 0 < sx := by omega
  have hsy : 0 < sy := by omega
  constructor
  · have h1 : 0 ≤ lz * (sy * sx) := mul_nonneg hz0 (mul_nonneg hsy.le hsx.le)
    have h2 : 0 ≤ ly * sx := mul_nonneg hy0 hsx.le
    omega
  · have h1 : lz * (sy * sx) ≤ (sz - 1) * (sy * sx) :=
      mul_le_mul_of_nonneg_right (by omega) (mul_nonneg hsy.le hsx.le)
    have h2 : ly * sx ≤ (sy - 1) * sx := mul_le_mul_of_nonneg_right (by omega) hsx.le
    have key : (sz - 1) * (sy * sx) + (sy - 1) * sx + lx =
        sz * (sy * sx) - sx + lx := by ring
    linarith

/-- C2: for every dense array and every requested extent, `for_each` (ref and
mut forms) iterates exactly over the intersection of the requested extent
with the array's extent, visiting each point exactly once in row-major order
with `z` outermost, then `y`, then `x`; and at every visited cell the exposed
stride addresses the same element as the exposed point (the stride accessor
agrees with the global-point accessor, and the stride is in bounds). -/
theorem c2_forEach_intersection {T : Type} [Inhabited T] (a : Array3 T) (e : Extent3)
    (hwf : a.wf) :
    (forEachPointAndStride a.extent e).map Prod.fst = (e.intersection a.extent).iterPoints ∧
    ((forEachPointAndStride a.extent e).map Prod.fst).Nodup ∧
    (∀ p : Point3, p ∈ (forEachPointAndStride a.extent e).map Prod.fst ↔
      (e.containsB p = true ∧ a.extent.containsB p = true)) ∧
    (∀ pr ∈ forEachPointAndStride a.extent e,
      pr.2 = strideFromPoint a.extent.shape (pr.1.sub a.extent.minimum) ∧
      pr.2 < a.values.length ∧
      a.getRefStride pr.2 = a.getRefPoint pr.1) ∧
    (a.forEachRefList e).map Prod.fst = forEachPointAndStride a.extent e ∧
    (∀ f, a.forEachMut e f =
      (forEachPointAndStride a.extent e).foldl
        (fun acc ps => ⟨acc.values.set ps.2 (f ps (acc.values.getD ps.2 default)), acc.extent⟩) a) := by
  obtain ⟨hx0, hx1, hy0, hy1, hz0, hz1, hyx, hzyx, hlen⟩ := hwf
  refine ⟨forEach_map_fst a.extent e, ?_, ?_, ?_,
    by simp [Array3.forEachRefList, Function.comp_def], fun f => rfl⟩
  · rw [forEach_map_fst]; exact nodup_iterPoints _
  · intro p
    rw [forEach_map_fst, mem_iterPoints, Extent3.containsB_intersection]
  · intro pr hpr
    rw [forEachPointAndStride_eq] at hpr
    unfold forEachSpecList at hpr
    simp only [List.mem_flatMap, List.mem_map, List.mem_range] at hpr
    obtain ⟨k, hk, j, hj, i, hi, rfl⟩ := hpr
    have hmin : (e.intersection a.extent).minimum = e.minimum.join a.extent.minimum := rfl
    have hlub := Extent3.lub_intersection e a.extent
    -- abbreviations
    have hyx0 : 0 ≤ a.extent.shape.y * a.extent.shape.x := mul_nonneg hy0 hx0
    have hwyx : wrap32 (a.extent.shape.y * a.extent.shape.x) =
        a.extent.shape.y * a.extent.shape.x := wrap32_eq_of_bounds (by omega) hyx
    rw [hmin, hlub] at hk hj hi
    rw [hwyx, hmin]
    simp only [Point3.join, Point3.meet, Extent3.lub, Point3.add] at hk hj hi ⊢
    -- local coordinates of the visited point
    have hlx0 : 0 ≤ max e.minimum.x a.extent.minimum.x - a.extent.minimum.x := by omega
    have hly0 : 0 ≤ max e.minimum.y a.extent.minimum.y - a.extent.minimum.y := by omega
    have hlz0 : 0 ≤ max e.minimum.z a.extent.minimum.z - a.extent.minimum.z := by omega
    have hxb : max e.minimum.x a.extent.minimum.x - a.extent.minimum.x + (i : Int) <
        a.extent.shape.x := by omega
    have hyb : max e.minimum.y a.extent.minimum.y - a.extent.minimum.y + (j : Int) <
        a.extent.shape.y := by omega
    have hzb : max e.minimum.z a.extent.minimum.z - a.extent.minimum.z + (k : Int) <
        a.extent.shape.z := by omega
    have hxa : (0 : Int) ≤ max e.minimum.x a.extent.minimum.x -
        a.extent.minimum.x + (i : Int) := by omega
    have hya : (0 : Int) ≤ max e.minimum.y a.extent.minimum.y -
        a.extent.minimum.y + (j : Int) := by omega
    have hza : (0 : Int) ≤ max e.minimum.z a.extent.minimum.z -
        a.extent.minimum.z + (k : Int) := by omega
    obtain ⟨hv0, hvlt⟩ := stride_formula_bounds hxa hxb hya hyb hza hzb
    -- evaluate the machine stride and the stride_from_point formula
    rw [usizeOfI32_eq_toNat hyx0 (by omega), usizeOfI32_eq_toNat hx0 (by omega),
      usizeOfI32_eq_toNat hlx0 (by omega), usizeOfI32_eq_toNat hly0 (by omega),
      usizeOfI32_eq_toNat hlz0 (by omega)]
    have hstride : strideFromPoint a.extent.shape
        ((⟨max e.minimum.x a.extent.minimum.x + (i : Int),
           max e.minimum.y a.extent.minimum.y + (j : Int),
           max e.minimum.z a.extent.minimum.z + (k : Int)⟩ : Point3).sub a.extent.minimum) =
        ((max e.minimum.z a.extent.minimum.z - a.extent.minimum.z + (k : Int)) *
            (a.extent.shape.y * a.extent.shape.x) +
          (max e.minimum.y a.extent.minimum.y - a.extent.minimum.y + (j : Int)) *
            a.extent.shape.x +
          (max e.minimum.x a.extent.minimum.x - a.extent.minimum.x + (i : Int))).toNat := by
      unfold strideFromPoint
      simp only [Point3.sub]
      rw [show (max e.minimum.z a.extent.minimum.z + (k : Int) - a.extent.minimum.z) *
            a.extent.shape.y * a.extent.shape.x +
          (max e.minimum.y a.extent.minimum.y + (j : Int) - a.extent.minimum.y) *
            a.extent.shape.x +
          (max e.minimum.x a.extent.minimum.x + (i : Int) - a.extent.minimum.x) =
          (max e.minimum.z a.extent.minimum.z - a.extent.minimum.z + (k : Int)) *
            (a.extent.shape.y * a.extent.shape.x) +
          (max e.minimum.y a.extent.minimum.y - a.extent.minimum.y + (j : Int)) *
            a.extent.shape.x +
          (max e.minimum.x a.extent.minimum.x - a.extent.minimum.x + (i : Int)) from by ring]
      rw [wrap32_eq_of_bounds (by omega) (by omega),
        usizeOfI32_eq_toNat (by omega) (by omega)]
    have hmach : (a.extent.shape.y * a.extent.shape.x).toNat *
          (max e.minimum.z a.extent.minimum.z - a.extent.minimum.z).toNat +
          k * (a.extent.shape.y * a.extent.shape.x).toNat +
          a.extent.shape.x.toNat *
            (max e.minimum.y a.extent.minimum.y - a.extent.minimum.y).toNat +
          j * a.extent.shape.x.toNat +
          1 * (max e.minimum.x a.extent.minimum.x - a.extent.minimum.x).toNat + i * 1 =
        ((max e.minimum.z a.extent.minimum.z - a.extent.minimum.z + (k : Int)) *
            (a.extent.shape.y * a.extent.shape.x) +
          (max e.minimum.y a.extent.minimum.y - a.extent.minimum.y + (j : Int)) *
            a.extent.shape.x +
          (max e.minimum.x a.extent.minimum.x - a.extent.minimum.x + (i : Int))).toNat := by
      have hcast : ((a.extent.shape.y * a.extent.shape.x).toNat *
            (max e.minimum.z a.extent.minimum.z - a.extent.minimum.z).toNat +
            k * (a.extent.shape.y * a.extent.shape.x).toNat +
            a.extent.shape.x.toNat *
              (max e.minimum.y a.extent.minimum.y - a.extent.minimum.y).toNat +
            j * a.extent.shape.x.toNat +
            1 * (max e.minimum.x a.extent.minimum.x - a.extent.minimum.x).toNat + i * 1 : Int) =
          (max e.minimum.z a.extent.minimum.z - a.extent.minimum.z + (k : Int)) *
            (a.extent.shape.y * a.extent.shape.x) +
          (max e.minimum.y a.extent.minimum.y - a.extent.minimum.y + (j : Int)) *
            a.extent.shape.x +
          (max e.minimum.x a.extent.minimum.x - a.extent.minimum.x + (i : Int)) := by
        push_cast [Int.toNat_of_nonneg hyx0, Int.toNat_of_nonneg hx0,
          Int.toNat_of_nonneg hlx0, Int.toNat_of_nonneg hly0, Int.toNat_of_nonneg hlz0]
        ring
      omega
    refine ⟨by rw [hstride]; exact hmach, ?_, ?_⟩
    · rw [hmach, hlen]
      unfold Extent3.numPoints
      have : (max e.minimum.z a.extent.minimum.z - a.extent.minimum.z + (k : Int)) *
            (a.extent.shape.y * a.extent.shape.x) +
          (max e.minimum.y a.extent.minimum.y - a.extent.minimum.y + (j : Int)) *
            a.extent.shape.x +
          (max e.minimum.x a.extent.minimum.x - a.extent.minimum.x + (i : Int)) <
          a.extent.shape.x * a.extent.shape.y * a.extent.shape.z := by
        have : a.extent.shape.z * (a.extent.shape.y * a.extent.shape.x) =
            a.extent.shape.x * a.extent.shape.y * a.extent.shape.z := by ring
        omega
      omega
    · unfold Array3.getRefPoint Array3.getRefLocal Array3.getRefStride
      rw [hstride, hmach]

theorem map_getD_range {T : Type} [Inhabited T] (l : List T) :
    (List.range l.length).map (fun i => l.getD i default) = l := by
  induction l with
  | nil => rfl
  | cons a l ih =>
      rw [List.length_cons, List.range_succ_eq_map]
      simp only [List.map_cons, List.map_map, Function.comp_def,
        List.getD_cons_zero, List.getD_cons_succ]
      rw [ih]

/-- C2 witness: the theorem applied to the concrete array `c2Array` and the
partially overlapping request `c2Extent`. -/
theorem c2_forEach_intersection_witness :
    (forEachPointAndStride c2Array.extent c2Extent).map Prod.fst =
      (c2Extent.intersection c2Array.extent).iterPoints :=
  (c2_forEach_intersection c2Array c2Extent (by decide)).1

/-- C4: the stride computed by `stride_from_point` from a shape and a local
point equals `p.z * (s.y * s.x) + p.y * s.x + p.x` whenever that value is a
representable non-negative `i32`; and checked global-point access reads the
element at the stride computed from the local point `p - minimum` (the
two-step global to local to stride path). -/
theorem c4_stride_addressing :
    (∀ s p : Point3, 0 ≤ p.z * (s.y * s.x) + p.y * s.x + p.x →
      p.z * (s.y * s.x) + p.y * s.x + p.x < 2 ^ 31 →
      strideFromPoint s p = (p.z * (s.y * s.x) + p.y * s.x + p.x).toNat) ∧
    (∀ (T : Type) (a : Array3 T) (p : Point3),
      a.getRefPoint p =
        a.getRefStride (strideFromPoint a.extent.shape (p.sub a.extent.minimum))) := by
  constructor
  · intro s p h0 h1
    unfold strideFromPoint
    rw [show p.z * s.y * s.x + p.y * s.x + p.x =
        p.z * (s.y * s.x) + p.y * s.x + p.x from by ring]
    rw [wrap32_eq_of_bounds (by omega) h1, usizeOfI32_eq_toNat h0 (by omega)]
  · intro T a p
    rfl

/-- C4 witness: shape `(4, 4, 4)`, local point `(1, 2, 3)`, stride `57`. -/
theorem c4_stride_addressing_witness :
    strideFromPoint ⟨4, 4, 4⟩ ⟨1, 2, 3⟩ = 57 := by
  have h := c4_stride_addressing.1 ⟨4, 4, 4⟩ ⟨1, 2, 3⟩ (by norm_num) (by norm_num)
  simpa using h

/-- C6 counterexample: the global point `(4, 0, 0)` is outside the extent of
the `4 * 4 * 4` array `c6Array`, yet the checked global-point accessor
returns a value (it aliases the in-bounds stride `4`) instead of failing. -/
theorem c6_out_of_bounds_counterexample :
    c6Array.extent.containsB ⟨4, 0, 0⟩ = false ∧
    c6Array.getRefPoint ⟨4, 0, 0⟩ = some 7 := by
  exact ⟨rfl, rfl⟩

/-- C6 (amended): a checked accessor (read or write, by stride, local, or
global point) fails at the point of access exactly when the stride it
computes is past the value sequence; for stride coordinates this is exactly
out-of-bounds, while a point outside the extent whose derived stride is
still in range returns the aliased element rather than failing. -/
theorem c6_checked_accessors_amended {T : Type} (a : Array3 T) (s : Nat)
    (p q : Point3) (v : T) :
    (a.getRefStride s = none ↔ a.values.length ≤ s) ∧
    (a.getRefLocal p = none ↔
      a.values.length ≤ strideFromPoint a.extent.shape p) ∧
    (a.getRefPoint q = none ↔
      a.values.length ≤ strideFromPoint a.extent.shape (q.sub a.extent.minimum)) ∧
    (a.setStride s v = none ↔ a.values.length ≤ s) ∧
    (a.setLocal p v = none ↔
      a.values.length ≤ strideFromPoint a.extent.shape p) ∧
    (a.setPoint q v = none ↔
      a.values.length ≤ strideFromPoint a.extent.shape (q.sub a.extent.minimum)) := by
  have hget : ∀ n, a.getRefStride n = none ↔ a.values.length ≤ n := by
    intro n
    unfold Array3.getRefStride
    exact List.getElem?_eq_none_iff
  have hset : ∀ n w, a.setStride n w = none ↔ a.values.length ≤ n := by
    intro n w
    unfold Array3.setStride
    split <;> simp <;> omega
  exact ⟨hget s, hget _, hget _, hset s v, hset _ v, hset _ v⟩

/-- C7: transform-view transparency: at every coordinate kind the transform
view returns the transform applied to the delegate's value, and its bulk
traversal visits exactly the delegate's coordinates, with the transformed
value at each. -/
theorem c7_transform_transparency {T S : Type} [Inhabited T] (a : Array3 T)
    (f : T → S) (c : Nat) (p q : Point3) (e : Extent3) :
    (TransformMap.mk a f).getStride c = (a.getRefStride c).map f ∧
    (TransformMap.mk a f).getLocal p = (a.getRefLocal p).map f ∧
    (TransformMap.mk a f).getPoint q = (a.getRefPoint q).map f ∧
    ((TransformMap.mk a f).forEachRefList e).map Prod.fst =
      (a.forEachRefList e).map Prod.fst ∧
    (TransformMap.mk a f).forEachRefList e =
      (a.forEachRefList e).map fun ct => (ct.1, f ct.2) := by
  refine ⟨rfl, rfl, rfl, ?_, rfl⟩
  unfold TransformMap.forEachRefList
  rw [List.map_map]
  rfl

/-- C8: construction contract violations fail fatally: `ArrayN::new` fails
iff the value count differs from the extent's point count, and
`Octree::from_array` fails iff the power is `0` or exceeds `6`, or the
source shape is not the cube `[2 ^ power; 3]`. -/
theorem c8_construction_contracts {T : Type} [Inhabited T] (extent : Extent3)
    (values : List T) (isEmpty : T → Bool) (power : Nat) (array : Array3 T) :
    (Array3.new extent values = none ↔ values.length ≠ extent.numPoints) ∧
    (Octree.fromArray isEmpty power array = none ↔
      (power = 0 ∨ 6 < power ∨
        array.extent.shape ≠
          (⟨2 ^ power, 2 ^ power, 2 ^ power⟩ : Point3))) := by
  constructor
  · unfold Array3.new
    split <;> simp_all
  · unfold Octree.fromArray
    rcases Nat.eq_zero_or_pos power with h0 | h0
    · simp [h0]
    · by_cases h6 : power ≤ 6
      · by_cases hsh : array.extent.shape =
            (⟨2 ^ power, 2 ^ power, 2 ^ power⟩ : Point3)
        · simp [h0, h6, hsh]
          omega
        · simp [h0, h6, hsh]
      · simp [h0, h6]
        omega

/-- C3: compression round-trip.  For any dense array whose value sequence
matches its extent, composing `compress` with `decompress` is the identity,
given that the external LZ4 codec decodes what it encodes at the used level
and that the plain-data byte reinterpretation is invertible. -/
theorem c3_compress_roundtrip {T : Type} [Inhabited T]
    (ser : List T → List Nat) (deser : List Nat → List T)
    (enc : Nat → List Nat → List Nat) (dec : List Nat → List Nat)
    (level : Nat) (a : Array3 T)
    (hcodec : ∀ bs, dec (enc level bs) = bs)
    (hser : deser (ser a.values) = a.values)
    (hlen : a.values.length = a.extent.numPoints) :
    (a.compress ser enc ⟨level⟩).decompress deser dec = a := by
  unfold Array3.compress FastLz4CompressedArray3.decompress
  simp only [hcodec, hser]
  cases a with
  | mk values extent =>
      simp only at hlen ⊢
      rw [← hlen, map_getD_range]

/-- C3 witness: the identity codec and serialization on `c3Array` at level
`10`. -/
theorem c3_compress_roundtrip_witness :
    (c3Array.compress (fun vs => vs) (fun _ bs => bs) ⟨10⟩).decompress
      (fun bs => bs) (fun bs => bs) = c3Array :=
  c3_compress_roundtrip (fun vs => vs) (fun bs => bs) (fun _ bs => bs)
    (fun bs => bs) 10 c3Array (fun bs => rfl) rfl (by decide)

/-- C1 (code bug, evaluated at the failing input): from the `4 * 4 * 4`
occupancy array that is full except at `(0, 0, 0)`, the built octree's
traversal reports exactly one leaf octant — the entire root cube — which
contains the point `(0, 0, 0)` even though that point is empty in the
source (and inside the source's extent).  The root's child bitmask is
`0xff` (all eight children non-empty), so the root is not stored and
`_visit` treats it as an implicit full leaf, although one descendant voxel
is missing. -/
theorem c1_octree_soundness_bug :
    (Octree.fromArray (fun b => !b) 2 c1Array).map Octree.visitCollect =
      some [({ minimum := ⟨0, 0, 0⟩, edge_length := 4 }, true)] ∧
    Octant.containsB { minimum := ⟨0, 0, 0⟩, edge_length := 4 } ⟨0, 0, 0⟩ = true ∧
    c1Array.extent.containsB ⟨0, 0, 0⟩ = true ∧
    (c1Array.getRefPoint ⟨0, 0, 0⟩).map (fun b => !b) = some true := by
  exact ⟨rfl, rfl, rfl, rfl⟩

theorem traceOk_nil (st : VisitStatus) : TraceOk [] st := by
  intro d1 e d2 h
  simp at h

theorem traceOk_single (o : Octant) (b : Bool) (st : VisitStatus) :
    TraceOk [(o, b, st)] st := by
  intro d1 e d2 h hexit
  cases d1 with
  | nil =>
      simp at h
      obtain ⟨he, hd2⟩ := h
      subst he
      exact ⟨hd2, hexit⟩
  | cons a d1 => simp at h

theorem traceOk_append {d1 d2 : List (Octant × Bool × VisitStatus)}
    {st1 st : VisitStatus} (h1 : TraceOk d1 st1)
    (hne : st1 ≠ VisitStatus.ExitEarly) (h2 : TraceOk d2 st) :
    TraceOk (d1 ++ d2) st := by
  intro e1 e e2 heq hexit
  rcases List.append_eq_append_iff.mp heq with ⟨l, hA, hB⟩ | ⟨l, hA, hB⟩
  · exact h2 l e e2 hB hexit
  · cases l with
    | nil =>
        simp at hB
        exact h2 [] e e2 (by simpa using hB.symm) hexit
    | cons x l =>
        simp at hB
        obtain ⟨hx, he2⟩ := hB
        subst hx
        exact absurd (h1 e1 e l (by simpa using hA) hexit).2 hne

theorem foldl_visitChildStep_spec {σ : Type}
    (child : Nat → Point3 → (σ × List (Octant × Bool × VisitStatus)) →
      (σ × List (Octant × Bool × VisitStatus)) × VisitStatus)
    (hchild : ∀ (oct : Nat) (off : Point3) (s : σ) (tr), ∃ s2 δ st,
      child oct off (s, tr) = ((s2, tr ++ δ), st) ∧ TraceOk δ st)
    (bm : Nat) (l : List (Nat × Point3)) :
    ∀ (s : σ) (tr) (st0 : VisitStatus),
    st0 = VisitStatus.Continue ∨ st0 = VisitStatus.ExitEarly →
    ∃ s2 δ st, l.foldl (visitChildStep child bm) ((s, tr), st0) =
        ((s2, tr ++ δ), st) ∧
      (st0 = VisitStatus.ExitEarly → δ = [] ∧ st = VisitStatus.ExitEarly ∧ s2 = s) ∧
      (st0 = VisitStatus.Continue → TraceOk δ st) := by
  induction l with
  | nil =>
      intro s tr st0 _
      exact ⟨s, [], st0, by simp, fun h => ⟨rfl, h, rfl⟩, fun _ => traceOk_nil st0⟩
  | cons hd rest ih =>
      intro s tr st0 hst0
      rw [List.foldl_cons]
      rcases hst0 with hc | hex
      · subst hc
        by_cases hbit : (bm &&& (1 <<< hd.1) == 0) = true
        · rw [show visitChildStep child bm ((s, tr), VisitStatus.Continue) hd =
              ((s, tr), VisitStatus.Continue) from by
            simp [visitChildStep, hbit]]
          obtain ⟨s2, δ, st, hf, _, hcont⟩ := ih s tr VisitStatus.Continue (Or.inl rfl)
          exact ⟨s2, δ, st, hf, fun h => by simp at h, hcont⟩
        · obtain ⟨s2, δ1, st1, hch, htr1⟩ := hchild hd.1 hd.2 s tr
          by_cases hst1 : st1 = VisitStatus.ExitEarly
          · subst hst1
            rw [show visitChildStep child bm ((s, tr), VisitStatus.Continue) hd =
                ((s2, tr ++ δ1), VisitStatus.ExitEarly) from by
              simp [visitChildStep, hbit, hch]]
            obtain ⟨s3, δ2, st, hf, hex', _⟩ :=
              ih s2 (tr ++ δ1) VisitStatus.ExitEarly (Or.inr rfl)
            obtain ⟨hδ2, hst, hs3⟩ := hex' rfl
            refine ⟨s3, δ1, st, ?_, fun h => by simp at h, fun _ => ?_⟩
            · rw [hδ2] at hf
              simpa using hf
            · rw [hst]
              rw [hst] at hf
              exact htr1
          · rw [show visitChildStep child bm ((s, tr), VisitStatus.Continue) hd =
                ((s2, tr ++ δ1), VisitStatus.Continue) from by
              simp [visitChildStep, hbit, hch, hst1]]
            obtain ⟨s3, δ2, st, hf, _, hcont⟩ :=
              ih s2 (tr ++ δ1) VisitStatus.Continue (Or.inl rfl)
            refine ⟨s3, δ1 ++ δ2, st, by simpa [List.append_assoc] using hf,
              fun h => by simp at h, fun _ => ?_⟩
            exact traceOk_append htr1 hst1 (hcont rfl)
      · subst hex
        rw [show visitChildStep child bm ((s, tr), VisitStatus.ExitEarly) hd =
            ((s, tr), VisitStatus.ExitEarly) from by simp [visitChildStep]]
        obtain ⟨s2, δ, st, hf, hex', _⟩ := ih s tr VisitStatus.ExitEarly (Or.inr rfl)
        obtain ⟨hδ, hst, hs⟩ := hex' rfl
        exact ⟨s2, δ, st, hf, fun _ => ⟨hδ, hst, hs⟩, fun h => by simp at h⟩

theorem visitRec_instr_spec {σ : Type} (t : Octree)
    (v : σ → Octant → Bool → σ × VisitStatus) :
    ∀ (k loc : Nat) (mn : Point3) (offs : List Point3) (s : σ)
      (tr : List (Octant × Bool × VisitStatus)),
    ∃ s2 δ st, visitRec t (instr v) loc mn k offs (s, tr) =
      ((s2, tr ++ δ), st) ∧ TraceOk δ st := by
  intro k
  induction k with
  | zero =>
      intro loc mn offs s tr
      exact ⟨(v s ⟨mn, 1⟩ true).1, [(⟨mn, 1⟩, true, (v s ⟨mn, 1⟩ true).2)],
        (v s ⟨mn, 1⟩ true).2, rfl, traceOk_single _ _ _⟩
  | succ j ih =>
      intro loc mn offs s tr
      rw [visitRec]
      cases hlk : lookupNode t.nodes loc with
      | none =>
          exact ⟨(v s ⟨mn, 2 ^ (j + 1)⟩ true).1,
            [(⟨mn, 2 ^ (j + 1)⟩, true, (v s ⟨mn, 2 ^ (j + 1)⟩ true).2)],
            (v s ⟨mn, 2 ^ (j + 1)⟩ true).2, rfl, traceOk_single _ _ _⟩
      | some bm =>
          simp only []
          by_cases hres : (instr v (s, tr) ⟨mn, 2 ^ (j + 1)⟩ false).2 ≠
              VisitStatus.Continue
          · rw [if_pos hres]
            exact ⟨(v s ⟨mn, 2 ^ (j + 1)⟩ false).1,
              [(⟨mn, 2 ^ (j + 1)⟩, false, (v s ⟨mn, 2 ^ (j + 1)⟩ false).2)],
              (v s ⟨mn, 2 ^ (j + 1)⟩ false).2, rfl, traceOk_single _ _ _⟩
          · rw [if_neg hres]
            push_neg at hres
            have hv2 : (v s ⟨mn, (2 ^ (j + 1) : Int)⟩ false).2 =
                VisitStatus.Continue := hres
            obtain ⟨s3, δ2, st, hf, _, hcont⟩ :=
              foldl_visitChildStep_spec
                (fun oct off sp =>
                  visitRec t (instr v)
                    (LocationCode.withLowestOctant (LocationCode.extend loc) oct)
                    (mn.add off) j (offs.map fun p => p.rightShift 1) sp)
                (fun oct off s' tr' => ih
                  (LocationCode.withLowestOctant (LocationCode.extend loc) oct)
                  (mn.add off) (offs.map fun p => p.rightShift 1) s' tr')
                bm ((offs.map fun p => p.rightShift 1).enum)
                (v s ⟨mn, (2 ^ (j + 1) : Int)⟩ false).1
                (tr ++ [(⟨mn, (2 ^ (j + 1) : Int)⟩, false, VisitStatus.Continue)])
                VisitStatus.Continue (Or.inl rfl)
            refine ⟨s3, (⟨mn, (2 ^ (j + 1) : Int)⟩, false, VisitStatus.Continue) :: δ2,
              st, ?_, ?_⟩
            · rw [show instr v (s, tr) ⟨mn, (2 ^ (j + 1) : Int)⟩ false =
                  (((v s ⟨mn, (2 ^ (j + 1) : Int)⟩ false).1,
                    tr ++ [(⟨mn, (2 ^ (j + 1) : Int)⟩, false, VisitStatus.Continue)]),
                  VisitStatus.Continue) from by
                simp [instr, hv2]]
              simpa [List.append_assoc] using hf
            · have := traceOk_append
                (traceOk_single ⟨mn, (2 ^ (j + 1) : Int)⟩ false VisitStatus.Continue)
                (by simp) (hcont rfl)
              simpa using this

/-- C9: visitor status propagation.  (1) In any traversal, an invocation
returning `ExitEarly` is the last invocation, and `visit` itself returns
`ExitEarly`.  (2) A `Stop` returned at a stored non-leaf node makes `_visit`
return `Stop` immediately: no child of that node is visited (the trace grows
by that single invocation).  (3) In the sibling loop, any child result other
than `ExitEarly` leads to the identical continuation: `Stop` behaves exactly
like `Continue`. -/
theorem c9_visit_status_propagation :
    (∀ (σ : Type) (v : σ → Octant → Bool → σ × VisitStatus) (t : Octree)
      (s0 : σ) (pre : List (Octant × Bool × VisitStatus))
      (e : Octant × Bool × VisitStatus)
      (post : List (Octant × Bool × VisitStatus)),
      (t.visit (instr v) (s0, [])).1.2 = pre ++ e :: post →
      e.2.2 = VisitStatus.ExitEarly →
      post = [] ∧ (t.visit (instr v) (s0, [])).2 = VisitStatus.ExitEarly) ∧
    (∀ (σ : Type) (v : σ → Octant → Bool → σ × VisitStatus) (t : Octree)
      (loc : Nat) (mn : Point3) (j : Nat) (offs : List Point3) (s : σ)
      (tr : List (Octant × Bool × VisitStatus)) (bm : Nat) (s1 : σ),
      lookupNode t.nodes loc = some bm →
      v s ⟨mn, (2 ^ (j + 1) : Int)⟩ false = (s1, VisitStatus.Stop) →
      visitRec t (instr v) loc mn (j + 1) offs (s, tr) =
        ((s1, tr ++ [(⟨mn, (2 ^ (j + 1) : Int)⟩, false, VisitStatus.Stop)]),
          VisitStatus.Stop)) ∧
    (∀ (σ : Type) (child1 child2 : Nat → Point3 → σ → σ × VisitStatus)
      (bm : Nat) (acc : σ × VisitStatus) (oo : Nat × Point3) (s2 : σ)
      (st1 st2 : VisitStatus),
      st1 ≠ VisitStatus.ExitEarly → st2 ≠ VisitStatus.ExitEarly →
      child1 oo.1 oo.2 acc.1 = (s2, st1) → child2 oo.1 oo.2 acc.1 = (s2, st2) →
      visitChildStep child1 bm acc oo = visitChildStep child2 bm acc oo) := by
  refine ⟨?_, ?_, ?_⟩
  · intro σ v t s0 pre e post htr hexit
    unfold Octree.visit at htr ⊢
    by_cases hroot : t.root_exists
    · rw [if_neg (by simp [hroot])] at htr ⊢
      obtain ⟨s2, δ, st, hf, hok⟩ := visitRec_instr_spec t v (t.root_level + 1) 1
        t.extent.minimum (Point3.cornerOffsets.map fun p =>
          p.smul ((t.edgeLength : Int))) s0 []
      rw [hf] at htr ⊢
      simp only [List.nil_append] at htr
      exact hok pre e post htr hexit
    · rw [if_pos (by simp [hroot])] at htr
      simp at htr
  · intro σ v t loc mn j offs s tr bm s1 hlk hv
    rw [visitRec, hlk]
    simp only []
    rw [show instr v (s, tr) ⟨mn, (2 ^ (j + 1) : Int)⟩ false =
        ((s1, tr ++ [(⟨mn, (2 ^ (j + 1) : Int)⟩, false, VisitStatus.Stop)]),
          VisitStatus.Stop) from by simp [instr, hv]]
    rw [if_pos (by simp)]
  · intro σ child1 child2 bm acc oo s2 st1 st2 h1 h2 hc1 hc2
    unfold visitChildStep
    rw [hc1, hc2]
    simp [h1, h2]

/-- C9 witness: an exit-early visitor on the one-voxel octree; the trace is
the single root invocation and `visit` returns `ExitEarly`. -/
theorem c9_visit_status_propagation_witness :
    ([] : List (Octant × Bool × VisitStatus)) = [] ∧
      (c9Tree.visit (instr c9Visitor) (0, [])).2 = VisitStatus.ExitEarly :=
  c9_visit_status_propagation.1 Nat c9Visitor c9Tree 0 []
    (⟨⟨⟨0, 0, 0⟩, 2⟩, false, VisitStatus.ExitEarly⟩) [] rfl rfl

theorem two_pow_mul_lor_add : ∀ (n a b : Nat), b < 2 ^ n →
    (2 ^ n * a) ||| b = 2 ^ n * a + b := by
  intro n
  induction n with
  | zero =>
      intro a b hb
      interval_cases b
      simp
  | succ n ih =>
      intro a b hb
      have h1 : 2 ^ (n + 1) * a = Nat.bit false (2 ^ n * a) := by
        simp [Nat.bit]
        ring
      have h2 : b = Nat.bit (decide (b % 2 = 1)) (b / 2) := by
        rcases Nat.even_or_odd b with h | h
        · have hm : b % 2 = 0 := Nat.even_iff.mp h
          simp [Nat.bit, hm]
          omega
        · have hm : b % 2 = 1 := Nat.odd_iff.mp h
          simp [Nat.bit, hm]
          omega
      rw [h1]
      conv_lhs => rw [h2]
      rw [Nat.lor_bit]
      have hb2 : b / 2 < 2 ^ n := by omega
      rw [ih a (b / 2) hb2]
      rcases Nat.even_or_odd b with h | h
      · have hm : b % 2 = 0 := Nat.even_iff.mp h
        simp [Nat.bit, hm]
        ring_nf
        omega
      · have hm : b % 2 = 1 := Nat.odd_iff.mp h
        simp [Nat.bit, hm]
        ring_nf
        omega

theorem base8_foldl_bounds : ∀ (path : List Nat) (c : Nat),
    (∀ o ∈ path, o < 8) →
    c * 8 ^ path.length ≤ path.foldl (fun a o => a * 8 + o) c ∧
      path.foldl (fun a o => a * 8 + o) c < (c + 1) * 8 ^ path.length := by
  intro path
  induction path with
  | nil =>
      intro c _
      simp
  | cons o rest ih =>
      intro c h
      have ho : o < 8 := h o (by simp)
      have hrest : ∀ x ∈ rest, x < 8 := fun x hx => h x (by simp [hx])
      obtain ⟨h1, h2⟩ := ih (c * 8 + o) hrest
      rw [List.foldl_cons]
      constructor
      · calc c * 8 ^ (o :: rest).length = (c * 8) * 8 ^ rest.length := by
              simp [List.length_cons]
              ring
          _ ≤ (c * 8 + o) * 8 ^ rest.length := Nat.mul_le_mul_right _ (by omega)
          _ ≤ _ := h1
      · calc rest.foldl (fun a o => a * 8 + o) (c * 8 + o) <
              (c * 8 + o + 1) * 8 ^ rest.length := h2
          _ ≤ ((c + 1) * 8) * 8 ^ rest.length := Nat.mul_le_mul_right _ (by omega)
          _ = (c + 1) * 8 ^ (o :: rest).length := by
              simp [List.length_cons]
              ring

theorem pathToNum_append (p : List Nat) (o : Nat) :
    pathToNum (p ++ [o]) = 8 * pathToNum p + o := by
  unfold pathToNum
  rw [List.foldl_append]
  simp [List.foldl_cons]
  ring

theorem decodePath_pathToNum : ∀ (path : List Nat), (∀ o ∈ path, o < 8) →
    decodePath (pathToNum path) = path := by
  intro path
  induction path using List.reverseRecOn with
  | nil =>
      intro _
      have h1 : pathToNum [] = 1 := rfl
      rw [h1]
      unfold decodePath
      simp
  | append_singleton p o ih =>
      intro h
      have ho : o < 8 := h o (by simp)
      have hp : ∀ x ∈ p, x < 8 := fun x hx => h x (by simp [hx])
      have hge : 1 ≤ pathToNum p := by
        have hlow := (base8_foldl_bounds p 1 hp).1
        have h8 : 1 ≤ 8 ^ p.length := Nat.one_le_pow _ _ (by omega)
        unfold pathToNum
        omega
      rw [pathToNum_append]
      unfold decodePath
      rw [if_neg (by omega)]
      have hd : (8 * pathToNum p + o) / 8 = pathToNum p := by omega
      have hm : (8 * pathToNum p + o) % 8 = o := by omega
      rw [hd, hm, ih hp]

theorem pathToNum_inj {p1 p2 : List Nat} (h1 : ∀ o ∈ p1, o < 8)
    (h2 : ∀ o ∈ p2, o < 8) (heq : pathToNum p1 = pathToNum p2) : p1 = p2 := by
  rw [← decodePath_pathToNum p1 h1, ← decodePath_pathToNum p2 h2, heq]

theorem codeFold_eq_base8 : ∀ (path : List Nat) (c : Nat),
    (∀ o ∈ path, o < 8) → (c + 1) * 8 ^ path.length ≤ 2 ^ 16 →
    path.foldl (fun c o => LocationCode.withLowestOctant (LocationCode.extend c) o) c =
      path.foldl (fun a o => a * 8 + o) c := by
  intro path
  induction path with
  | nil =>
      intro c _ _
      rfl
  | cons o rest ih =>
      intro c h hb
      have ho : o < 8 := h o (by simp)
      have hrest : ∀ x ∈ rest, x < 8 := fun x hx => h x (by simp [hx])
      have h8 : (8 : Nat) ≤ 8 ^ (o :: rest).length := by
        rw [List.length_cons]
        exact Nat.le_self_pow (by omega) 8
      have hmul : (c + 1) * 8 ≤ (c + 1) * 8 ^ (o :: rest).length :=
        Nat.mul_le_mul_left _ h8
      have hcb : c * 8 + 8 ≤ 2 ^ 16 := by omega
      have hstep : LocationCode.withLowestOctant (LocationCode.extend c) o =
          c * 8 + o := by
        unfold LocationCode.extend LocationCode.withLowestOctant
        have hsl : c <<< 3 = c * 8 := by
          rw [Nat.shiftLeft_eq]
        rw [hsl, Nat.mod_eq_of_lt (by omega)]
        rw [show c * 8 = 2 ^ 3 * c from by ring,
          two_pow_mul_lor_add 3 c o (by omega)]
      rw [List.foldl_cons, List.foldl_cons, hstep]
      apply ih (c * 8 + o) hrest
      calc (c * 8 + o + 1) * 8 ^ rest.length ≤
            ((c + 1) * 8) * 8 ^ rest.length := Nat.mul_le_mul_right _ (by omega)
        _ = (c + 1) * 8 ^ (o :: rest).length := by
            simp [List.length_cons]
            ring
        _ ≤ 2 ^ 16 := hb

theorem codeOfPath_eq_pathToNum {path : List Nat} (h : ∀ o ∈ path, o < 8)
    (hl : path.length ≤ 5) : codeOfPath path = pathToNum path := by
  unfold codeOfPath pathToNum
  apply codeFold_eq_base8 path 1 h
  calc (1 + 1) * 8 ^ path.length ≤ 2 * 8 ^ 5 := by
        have := Nat.pow_le_pow_right (show 1 ≤ 8 by omega) hl
        omega
    _ ≤ 2 ^ 16 := by norm_num

theorem codeOfPath_lt {path : List Nat} (h : ∀ o ∈ path, o < 8)
    (hl : path.length ≤ 5) : codeOfPath path < 2 ^ 16 := by
  rw [codeOfPath_eq_pathToNum h hl]
  have hup := (base8_foldl_bounds path 1 h).2
  have hpow : (8 : Nat) ^ path.length ≤ 8 ^ 5 :=
    Nat.pow_le_pow_right (by omega) hl
  unfold pathToNum
  omega

theorem codeOfPath_inj {p1 p2 : List Nat} (h1 : ∀ o ∈ p1, o < 8)
    (h2 : ∀ o ∈ p2, o < 8) (hl1 : p1.length ≤ 5) (hl2 : p2.length ≤ 5)
    (heq : codeOfPath p1 = codeOfPath p2) : p1 = p2 := by
  rw [codeOfPath_eq_pathToNum h1 hl1, codeOfPath_eq_pathToNum h2 hl2] at heq
  exact pathToNum_inj h1 h2 heq

/-- C10 counterexample: at `power = 6` the recursion descends six levels, and
the 16-bit location code wraps: the two distinct voxel-level octants at paths
`[0,0,0,0,0,0]` and `[2,0,0,0,0,0]` are assigned the same code `0`. -/
theorem c10_location_code_counterexample :
    codeOfPath [0, 0, 0, 0, 0, 0] = codeOfPath [2, 0, 0, 0, 0, 0] ∧
    ([0, 0, 0, 0, 0, 0] : List Nat) ≠ [2, 0, 0, 0, 0, 0] ∧
    (∀ o ∈ ([0, 0, 0, 0, 0, 0] : List Nat), o < 8) ∧
    (∀ o ∈ ([2, 0, 0, 0, 0, 0] : List Nat), o < 8) ∧
    ([0, 0, 0, 0, 0, 0] : List Nat).length = 6 := by
  refine ⟨rfl, by decide, by decide, by decide, rfl⟩

theorem cornerStrideO_succ (e k o : Nat) :
    cornerStrideO e (k + 1) o = 2 * cornerStrideO e k o := by
  unfold cornerStrideO
  ring

theorem cornerStridesSpec_half (e k : Nat) :
    (cornerStridesSpec e (k + 1)).map (fun c => c >>> 1) =
      cornerStridesSpec e k := by
  unfold cornerStridesSpec
  rw [List.map_map]
  apply List.map_congr_left
  intro o _
  simp only [Function.comp_apply, cornerStrideO_succ]
  rw [Nat.shiftRight_eq_div_pow]
  omega

theorem enum_cornerStridesSpec (e k : Nat) :
    (cornerStridesSpec e k).enum =
      [(0, cornerStrideO e k 0), (1, cornerStrideO e k 1),
       (2, cornerStrideO e k 2), (3, cornerStrideO e k 3),
       (4, cornerStrideO e k 4), (5, cornerStrideO e k 5),
       (6, cornerStrideO e k 6), (7, cornerStrideO e k 7)] := rfl

theorem octantExistsB_zero (occ : Nat → Nat → Nat → Bool) (x y z : Nat) :
    octantExistsB occ 0 x y z = occ x y z := by
  unfold octantExistsB
  rw [show List.range (2 ^ 0) = [0] from rfl]
  simp

theorem octantExistsB_succ_iff (occ : Nat → Nat → Nat → Bool) (j x y z : Nat) :
    octantExistsB occ (j + 1) x y z = true ↔
      ∃ o < 8, childExistsBit occ j x y z o = true := by
  have hp : 0 < 2 ^ j := Nat.pos_pow_of_pos j (by omega)
  have hpow : 2 ^ (j + 1) = 2 * 2 ^ j := by ring
  constructor
  · intro h
    simp only [octantExistsB, List.any_eq_true, List.mem_range] at h
    obtain ⟨dz, hdz, dy, hdy, dx, hdx, hocc⟩ := h
    refine ⟨dx / 2 ^ j % 2 + 2 * (dy / 2 ^ j % 2) + 4 * (dz / 2 ^ j % 2),
      by omega, ?_⟩
    unfold childExistsBit
    simp only [octantExistsB, List.any_eq_true, List.mem_range]
    have hdx2 : dx / 2 ^ j < 2 := by
      rw [Nat.div_lt_iff_lt_mul hp]
      omega
    have hdy2 : dy / 2 ^ j < 2 := by
      rw [Nat.div_lt_iff_lt_mul hp]
      omega
    have hdz2 : dz / 2 ^ j < 2 := by
      rw [Nat.div_lt_iff_lt_mul hp]
      omega
    have hgen1 : ∀ b c d : Nat, b < 2 → c < 2 → d < 2 →
        (b % 2 + 2 * (c % 2) + 4 * (d % 2)) % 2 = b := by
      intro b c d hb hc hd
      omega
    have hgen2 : ∀ b c d : Nat, b < 2 → c < 2 → d < 2 →
        (b % 2 + 2 * (c % 2) + 4 * (d % 2)) / 2 % 2 = c := by
      intro b c d hb hc hd
      omega
    have hgen3 : ∀ b c d : Nat, b < 2 → c < 2 → d < 2 →
        (b % 2 + 2 * (c % 2) + 4 * (d % 2)) / 4 % 2 = d := by
      intro b c d hb hc hd
      omega
    have hmx : dx / 2 ^ j * 2 ^ j + dx % 2 ^ j = dx := Nat.div_add_mod' dx (2 ^ j)
    have hmy : dy / 2 ^ j * 2 ^ j + dy % 2 ^ j = dy := Nat.div_add_mod' dy (2 ^ j)
    have hmz : dz / 2 ^ j * 2 ^ j + dz % 2 ^ j = dz := Nat.div_add_mod' dz (2 ^ j)
    have hrx : dx % 2 ^ j < 2 ^ j := Nat.mod_lt _ hp
    have hry : dy % 2 ^ j < 2 ^ j := Nat.mod_lt _ hp
    have hrz : dz % 2 ^ j < 2 ^ j := Nat.mod_lt _ hp
    rw [hgen1 _ _ _ hdx2 hdy2 hdz2, hgen2 _ _ _ hdx2 hdy2 hdz2,
      hgen3 _ _ _ hdx2 hdy2 hdz2]
    refine ⟨dz % 2 ^ j, hrz, dy % 2 ^ j, hry, dx % 2 ^ j, hrx, ?_⟩
    have ex : x + dx / 2 ^ j * 2 ^ j + dx % 2 ^ j = x + dx := by omega
    have ey : y + dy / 2 ^ j * 2 ^ j + dy % 2 ^ j = y + dy := by omega
    have ez : z + dz / 2 ^ j * 2 ^ j + dz % 2 ^ j = z + dz := by omega
    rw [ex, ey, ez]
    exact hocc
  · rintro ⟨o, ho, h⟩
    unfold childExistsBit at h
    simp only [octantExistsB, List.any_eq_true, List.mem_range] at h ⊢
    obtain ⟨dz, hdz, dy, hdy, dx, hdx, hocc⟩ := h
    have hb1 : o % 2 * 2 ^ j ≤ 1 * 2 ^ j := Nat.mul_le_mul_right _ (by omega)
    have hb2 : o / 2 % 2 * 2 ^ j ≤ 1 * 2 ^ j := Nat.mul_le_mul_right _ (by omega)
    have hb3 : o / 4 % 2 * 2 ^ j ≤ 1 * 2 ^ j := Nat.mul_le_mul_right _ (by omega)
    refine ⟨o / 4 % 2 * 2 ^ j + dz, by omega, o / 2 % 2 * 2 ^ j + dy, by omega,
      o % 2 * 2 ^ j + dx, by omega, ?_⟩
    have ex : x + (o % 2 * 2 ^ j + dx) = x + o % 2 * 2 ^ j + dx := by omega
    have ey : y + (o / 2 % 2 * 2 ^ j + dy) = y + o / 2 % 2 * 2 ^ j + dy := by omega
    have ez : z + (o / 4 % 2 * 2 ^ j + dz) = z + o / 4 % 2 * 2 ^ j + dz := by omega
    rw [ex, ey, ez]
    exact hocc

theorem octantMaskB_ne_zero_or (bit : Nat → Bool) :
    (octantMaskB bit ≠ 0) ↔ (bit 0 = true ∨ bit 1 = true ∨ bit 2 = true ∨
      bit 3 = true ∨ bit 4 = true ∨ bit 5 = true ∨ bit 6 = true ∨
      bit 7 = true) := by
  unfold octantMaskB
  rw [show List.range 8 = [0, 1, 2, 3, 4, 5, 6, 7] from rfl]
  simp only [List.foldl_cons, List.foldl_nil]
  cases h0 : bit 0 <;> cases h1 : bit 1 <;> cases h2 : bit 2 <;>
    cases h3 : bit 3 <;> cases h4 : bit 4 <;> cases h5 : bit 5 <;>
    cases h6 : bit 6 <;> cases h7 : bit 7 <;> decide

theorem octantMaskB_eq_255_and (bit : Nat → Bool) :
    (octantMaskB bit = 255) ↔ (bit 0 = true ∧ bit 1 = true ∧ bit 2 = true ∧
      bit 3 = true ∧ bit 4 = true ∧ bit 5 = true ∧ bit 6 = true ∧
      bit 7 = true) := by
  unfold octantMaskB
  rw [show List.range 8 = [0, 1, 2, 3, 4, 5, 6, 7] from rfl]
  simp only [List.foldl_cons, List.foldl_nil]
  cases h0 : bit 0 <;> cases h1 : bit 1 <;> cases h2 : bit 2 <;>
    cases h3 : bit 3 <;> cases h4 : bit 4 <;> cases h5 : bit 5 <;>
    cases h6 : bit 6 <;> cases h7 : bit 7 <;> decide

theorem octantMaskB_ne_zero_iff_exists (bit : Nat → Bool) :
    octantMaskB bit ≠ 0 ↔ ∃ o < 8, bit o = true := by
  rw [octantMaskB_ne_zero_or]
  constructor
  · rintro (h | h | h | h | h | h | h | h)
    · exact ⟨0, by omega, h⟩
    · exact ⟨1, by omega, h⟩
    · exact ⟨2, by omega, h⟩
    · exact ⟨3, by omega, h⟩
    · exact ⟨4, by omega, h⟩
    · exact ⟨5, by omega, h⟩
    · exact ⟨6, by omega, h⟩
    · exact ⟨7, by omega, h⟩
  · rintro ⟨o, ho, h⟩
    interval_cases o <;> tauto

theorem partitionFold_spec {T : Type} [Inhabited T] (isEmpty : T → Bool)
    (array : Array3 T) (e j x y z ext : Nat)
    (IH : ∀ (loc x2 y2 z2 : Nat) (nds : List (Nat × Nat)),
      partitionArray isEmpty array loc (z2 * e * e + y2 * e + x2) j
          (cornerStridesSpec e j) nds =
        (octantExistsB (localOccB isEmpty array e) j x2 y2 z2,
          nds ++ specEntries (localOccB isEmpty array e) j loc x2 y2 z2)) :
    ∀ (os : List Nat) (bm : Nat) (nds : List (Nat × Nat)),
    (os.map fun o => (o, cornerStrideO e j o)).foldl
        (partitionChildStep
          (fun loc mn n2 =>
            partitionArray isEmpty array loc mn j (cornerStridesSpec e j) n2)
          ext (z * e * e + y * e + x))
        (bm, nds) =
      (os.foldl (fun b o =>
          b ||| (cond (childExistsBit (localOccB isEmpty array e) j x y z o) 1 0)
            <<< o) bm,
        nds ++ os.flatMap fun o =>
          specEntries (localOccB isEmpty array e) j
            (LocationCode.withLowestOctant ext o)
            (x + o % 2 * 2 ^ j) (y + o / 2 % 2 * 2 ^ j)
            (z + o / 4 % 2 * 2 ^ j)) := by
  intro os
  induction os with
  | nil =>
      intro bm nds
      simp
  | cons o rest ih =>
      intro bm nds
      rw [List.map_cons, List.foldl_cons, List.foldl_cons, List.flatMap_cons]
      have hmin : z * e * e + y * e + x + cornerStrideO e j o =
          (z + o / 4 % 2 * 2 ^ j) * e * e + (y + o / 2 % 2 * 2 ^ j) * e +
            (x + o % 2 * 2 ^ j) := by
        unfold cornerStrideO
        ring
      rw [show partitionChildStep
            (fun loc mn n2 =>
              partitionArray isEmpty array loc mn j (cornerStridesSpec e j) n2)
            ext (z * e * e + y * e + x) (bm, nds) (o, cornerStrideO e j o) =
          (bm ||| (cond (childExistsBit (localOccB isEmpty array e) j x y z o) 1 0)
              <<< o,
            nds ++ specEntries (localOccB isEmpty array e) j
              (LocationCode.withLowestOctant ext o)
              (x + o % 2 * 2 ^ j) (y + o / 2 % 2 * 2 ^ j)
              (z + o / 4 % 2 * 2 ^ j)) from by
        unfold partitionChildStep
        simp only []
        rw [hmin, IH]
        rfl]
      rw [ih]
      simp [List.append_assoc]

theorem partitionArray_spec {T : Type} [Inhabited T] (isEmpty : T → Bool)
    (array : Array3 T) (e : Nat) :
    ∀ (k loc x y z : Nat) (nodes : List (Nat × Nat)),
    partitionArray isEmpty array loc (z * e * e + y * e + x) k
        (cornerStridesSpec e k) nodes =
      (octantExistsB (localOccB isEmpty array e) k x y z,
        nodes ++ specEntries (localOccB isEmpty array e) k loc x y z) := by
  intro k
  induction k with
  | zero =>
      intro loc x y z nodes
      rw [partitionArray, octantExistsB_zero]
      unfold localOccB specEntries
      simp
  | succ j ih =>
      intro loc x y z nodes
      rw [partitionArray]
      rw [cornerStridesSpec_half, enum_cornerStridesSpec]
      rw [show [(0, cornerStrideO e j 0), (1, cornerStrideO e j 1),
          (2, cornerStrideO e j 2), (3, cornerStrideO e j 3),
          (4, cornerStrideO e j 4), (5, cornerStrideO e j 5),
          (6, cornerStrideO e j 6), (7, cornerStrideO e j 7)] =
          (([0, 1, 2, 3, 4, 5, 6, 7] : List Nat).map fun o =>
            (o, cornerStrideO e j o)) from rfl]
      rw [partitionFold_spec isEmpty array e j x y z (LocationCode.extend loc)
        (fun loc2 x2 y2 z2 nds => ih loc2 x2 y2 z2 nds)]
      have hmask : (([0, 1, 2, 3, 4, 5, 6, 7] : List Nat).foldl (fun b o =>
          b ||| (cond (childExistsBit (localOccB isEmpty array e) j x y z o) 1 0)
            <<< o) 0) = octantMaskB (childExistsBit (localOccB isEmpty array e) j x y z) := by
        unfold octantMaskB
        rw [show List.range 8 = [0, 1, 2, 3, 4, 5, 6, 7] from rfl]
      rw [hmask]
      have hex : (octantMaskB (childExistsBit (localOccB isEmpty array e) j x y z)
            != 0) = octantExistsB (localOccB isEmpty array e) (j + 1) x y z := by
        have h1 := octantMaskB_ne_zero_iff_exists
          (childExistsBit (localOccB isEmpty array e) j x y z)
        have h2 := octantExistsB_succ_iff (localOccB isEmpty array e) j x y z
        cases hcase : octantExistsB (localOccB isEmpty array e) (j + 1) x y z
        · rw [hcase] at h2
          simp only [Bool.false_eq_true, false_iff] at h2
          have hz : octantMaskB (childExistsBit (localOccB isEmpty array e) j x y z)
              = 0 := by
            by_contra hc
            exact h2 (h1.mp hc)
          simp [hz]
        · rw [hcase] at h2
          simp only [true_iff] at h2
          have hz : octantMaskB (childExistsBit (localOccB isEmpty array e) j x y z)
              ≠ 0 := h1.mpr h2
          simp [bne_iff_ne, hz]
      simp only []
      refine congrArg₂ Prod.mk hex ?_
      rw [show specEntries (localOccB isEmpty array e) (j + 1) loc x y z =
          (((List.range 8).flatMap fun o =>
            specEntries (localOccB isEmpty array e) j
              (LocationCode.withLowestOctant (LocationCode.extend loc) o)
              (x + o % 2 * 2 ^ j) (y + o / 2 % 2 * 2 ^ j)
              (z + o / 4 % 2 * 2 ^ j)) ++
          (if octantMaskB (childExistsBit (localOccB isEmpty array e) j x y z) != 0 &&
              !(octantMaskB (childExistsBit (localOccB isEmpty array e) j x y z)
                == 0xff) then
            [(loc, octantMaskB (childExistsBit (localOccB isEmpty array e) j x y z))]
          else [])) from rfl]
      rw [show (List.range 8) = ([0, 1, 2, 3, 4, 5, 6, 7] : List Nat) from rfl]
      by_cases hcond : (octantMaskB (childExistsBit (localOccB isEmpty array e) j x y z) != 0 &&
          !(octantMaskB (childExistsBit (localOccB isEmpty array e) j x y z) == 0xff)) = true
      · rw [if_pos hcond, if_pos hcond]
        simp [List.append_assoc]
      · rw [if_neg hcond, if_neg hcond]
        simp [List.append_assoc]

theorem specEntries_succ (occ : Nat → Nat → Nat → Bool) (j loc x y z : Nat) :
    specEntries occ (j + 1) loc x y z =
      ((List.range 8).flatMap fun o =>
        specEntries occ j
          (LocationCode.withLowestOctant (LocationCode.extend loc) o)
          (x + o % 2 * 2 ^ j) (y + o / 2 % 2 * 2 ^ j)
          (z + o / 4 % 2 * 2 ^ j)) ++
      (if octantMaskB (childExistsBit occ j x y z) != 0 &&
          !(octantMaskB (childExistsBit occ j x y z) == 0xff) then
        [(loc, octantMaskB (childExistsBit occ j x y z))]
      else []) := rfl

theorem octantMaskB_ne_zero_iff_octantExists (occ : Nat → Nat → Nat → Bool)
    (j x y z : Nat) :
    octantMaskB (childExistsBit occ j x y z) ≠ 0 ↔
      octantExistsB occ (j + 1) x y z = true := by
  rw [octantMaskB_ne_zero_iff_exists, octantExistsB_succ_iff]

theorem mem_specEntries (occ : Nat → Nat → Nat → Bool) :
    ∀ (k loc x y z c bm : Nat),
    ((c, bm) ∈ specEntries occ k loc x y z) ↔
      ∃ path : List Nat, path.length + 1 ≤ k ∧ (∀ o ∈ path, o < 8) ∧
        c = codeAppend loc path ∧
        bm = octantMaskB (childExistsBit occ (k - path.length - 1)
          (pathCorner k path x y z).1 (pathCorner k path x y z).2.1
          (pathCorner k path x y z).2.2) ∧
        bm ≠ 0 ∧ bm ≠ 255 := by
  intro k
  induction k with
  | zero =>
      intro loc x y z c bm
      constructor
      · intro h
        simp [specEntries] at h
      · rintro ⟨path, h1, _⟩
        omega
  | succ j ih =>
      intro loc x y z c bm
      rw [specEntries_succ]
      constructor
      · intro h
        rcases List.mem_append.mp h with h | h
        · rcases List.mem_flatMap.mp h with ⟨o, ho, hmem⟩
          have ho8 : o < 8 := List.mem_range.mp ho
          rcases (ih _ _ _ _ _ _).mp hmem with
            ⟨path, hlen, hdig, hc, hbm, hnz, hn255⟩
          refine ⟨o :: path, by simp; omega, ?_, ?_, ?_, hnz, hn255⟩
          · intro o2 ho2
            rcases List.mem_cons.mp ho2 with h2 | h2
            · rw [h2]; exact ho8
            · exact hdig o2 h2
          · rw [show codeAppend loc (o :: path) =
                codeAppend (LocationCode.withLowestOctant
                  (LocationCode.extend loc) o) path from rfl]
            exact hc
          · rw [show (j + 1 - (o :: path).length - 1) =
                (j - path.length - 1) from by simp]
            rw [show pathCorner (j + 1) (o :: path) x y z =
                pathCorner j path (x + o % 2 * 2 ^ j) (y + o / 2 % 2 * 2 ^ j)
                  (z + o / 4 % 2 * 2 ^ j) from rfl]
            exact hbm
        · by_cases hcond : (octantMaskB (childExistsBit occ j x y z) != 0 &&
              !(octantMaskB (childExistsBit occ j x y z) == 0xff)) = true
          · rw [if_pos hcond] at h
            simp only [List.mem_singleton, Prod.mk.injEq] at h
            obtain ⟨hc, hbm⟩ := h
            have hnz2 : octantMaskB (childExistsBit occ j x y z) ≠ 0 := by
              intro hq
              rw [hq] at hcond
              simp at hcond
            have h255 : octantMaskB (childExistsBit occ j x y z) ≠ 255 := by
              intro hq
              rw [hq] at hcond
              simp at hcond
            refine ⟨[], by simp, by simp, by simpa [codeAppend] using hc,
              ?_, ?_, ?_⟩
            · rw [show (j + 1 - ([] : List Nat).length - 1) = j from by simp]
              rw [show pathCorner (j + 1) [] x y z = (x, y, z) from rfl]
              exact hbm
            · rw [hbm]; exact hnz2
            · rw [hbm]; exact h255
          · rw [if_neg hcond] at h
            simp at h
      · rintro ⟨path, hlen, hdig, hc, hbm, hnz, hn255⟩
        rcases path with _ | ⟨o, rest⟩
        · apply List.mem_append.mpr
          right
          have hbm2 : bm = octantMaskB (childExistsBit occ j x y z) := by
            rw [hbm]
            rw [show (j + 1 - ([] : List Nat).length - 1) = j from by simp]
            rw [show pathCorner (j + 1) [] x y z = (x, y, z) from rfl]
          have hcond : (octantMaskB (childExistsBit occ j x y z) != 0 &&
              !(octantMaskB (childExistsBit occ j x y z) == 0xff)) = true := by
            rw [← hbm2]
            simp [bne_iff_ne, hnz, hn255]
          rw [if_pos hcond]
          simp only [List.mem_singleton, Prod.mk.injEq]
          exact ⟨by simpa [codeAppend] using hc, hbm2⟩
        · apply List.mem_append.mpr
          left
          apply List.mem_flatMap.mpr
          have ho8 : o < 8 := hdig o (by simp)
          refine ⟨o, List.mem_range.mpr ho8, ?_⟩
          apply (ih _ _ _ _ _ _).mpr
          refine ⟨rest, by simp at hlen ⊢; omega,
            fun o2 h2 => hdig o2 (List.mem_cons_of_mem _ h2), ?_, ?_,
            hnz, hn255⟩
          · rw [show codeAppend (LocationCode.withLowestOctant
                (LocationCode.extend loc) o) rest =
                codeAppend loc (o :: rest) from rfl]
            exact hc
          · rw [show (j - rest.length - 1) =
                (j + 1 - (o :: rest).length - 1) from by simp]
            rw [show pathCorner j rest (x + o % 2 * 2 ^ j)
                  (y + o / 2 % 2 * 2 ^ j) (z + o / 4 % 2 * 2 ^ j) =
                pathCorner (j + 1) (o :: rest) x y z from rfl]
            exact hbm

theorem specEntries_full (occ : Nat → Nat → Nat → Bool) :
    ∀ (k x y z loc : Nat),
    (∀ dx dy dz, dx < 2 ^ k → dy < 2 ^ k → dz < 2 ^ k →
      occ (x + dx) (y + dy) (z + dz) = true) →
    specEntries occ k loc x y z = [] ∧ octantExistsB occ k x y z = true := by
  intro k
  induction k with
  | zero =>
      intro x y z loc H
      refine ⟨rfl, ?_⟩
      rw [octantExistsB_zero]
      simpa using H 0 0 0 (by norm_num) (by norm_num) (by norm_num)
  | succ j ih =>
      intro x y z loc H
      have hpow : 2 ^ (j + 1) = 2 * 2 ^ j := by ring
      have Hc : ∀ o, o < 8 →
          ∀ dx dy dz, dx < 2 ^ j → dy < 2 ^ j → dz < 2 ^ j →
            occ (x + o % 2 * 2 ^ j + dx) (y + o / 2 % 2 * 2 ^ j + dy)
              (z + o / 4 % 2 * 2 ^ j + dz) = true := by
        intro o ho dx dy dz h1 h2 h3
        have e1 : o % 2 * 2 ^ j ≤ 1 * 2 ^ j :=
          Nat.mul_le_mul_right (2 ^ j) (by omega)
        have e2 : o / 2 % 2 * 2 ^ j ≤ 1 * 2 ^ j :=
          Nat.mul_le_mul_right (2 ^ j) (by omega)
        have e3 : o / 4 % 2 * 2 ^ j ≤ 1 * 2 ^ j :=
          Nat.mul_le_mul_right (2 ^ j) (by omega)
        have b1 : o % 2 * 2 ^ j + dx < 2 ^ (j + 1) := by omega
        have b2 : o / 2 % 2 * 2 ^ j + dy < 2 ^ (j + 1) := by omega
        have b3 : o / 4 % 2 * 2 ^ j + dz < 2 ^ (j + 1) := by omega
        simpa [Nat.add_assoc] using
          H (o % 2 * 2 ^ j + dx) (o / 2 % 2 * 2 ^ j + dy)
            (o / 4 % 2 * 2 ^ j + dz) b1 b2 b3
      have hchild : ∀ o, o < 8 → ∀ loc2,
          specEntries occ j
            (LocationCode.withLowestOctant (LocationCode.extend loc2) o)
            (x + o % 2 * 2 ^ j) (y + o / 2 % 2 * 2 ^ j)
            (z + o / 4 % 2 * 2 ^ j) = [] ∧
          childExistsBit occ j x y z o = true := by
        intro o ho loc2
        have := ih (x + o % 2 * 2 ^ j) (y + o / 2 % 2 * 2 ^ j)
          (z + o / 4 % 2 * 2 ^ j)
          (LocationCode.withLowestOctant (LocationCode.extend loc2) o)
          (Hc o ho)
        exact ⟨this.1, this.2⟩
      have hmask : octantMaskB (childExistsBit occ j x y z) = 255 := by
        apply (octantMaskB_eq_255_and _).mpr
        exact ⟨(hchild 0 (by omega) 0).2, (hchild 1 (by omega) 0).2,
          (hchild 2 (by omega) 0).2, (hchild 3 (by omega) 0).2,
          (hchild 4 (by omega) 0).2, (hchild 5 (by omega) 0).2,
          (hchild 6 (by omega) 0).2, (hchild 7 (by omega) 0).2⟩
      constructor
      · rw [specEntries_succ, hmask]
        rw [show List.range 8 = [0, 1, 2, 3, 4, 5, 6, 7] from rfl]
        simp only [List.flatMap_cons, List.flatMap_nil]
        rw [(hchild 0 (by omega) loc).1, (hchild 1 (by omega) loc).1,
          (hchild 2 (by omega) loc).1, (hchild 3 (by omega) loc).1,
          (hchild 4 (by omega) loc).1, (hchild 5 (by omega) loc).1,
          (hchild 6 (by omega) loc).1, (hchild 7 (by omega) loc).1]
        simp
      · exact (octantExistsB_succ_iff occ j x y z).mpr
          ⟨0, by omega, (hchild 0 (by omega) 0).2⟩

theorem fromArray_eq {T : Type} [Inhabited T] (isEmpty : T → Bool)
    (power : Nat) (array : Array3 T) (h1 : 0 < power) (h6 : power ≤ 6)
    (hsh : array.extent.shape =
      (⟨(2 : Int) ^ power, 2 ^ power, 2 ^ power⟩ : Point3)) :
    Octree.fromArray isEmpty power array =
      some { extent := array.extent, root_level := power - 1,
             root_exists := octantExistsB
               (localOccB isEmpty array (2 ^ power)) power 0 0 0,
             nodes := specEntries
               (localOccB isEmpty array (2 ^ power)) power 1 0 0 0 } := by
  unfold Octree.fromArray
  rw [if_neg (by simp [h1, h6])]
  rw [if_neg (by simp [hsh])]
  rw [hsh]
  have hcs : (Point3.cornerOffsets.map fun p =>
        p.smul ((2 : Int) ^ power)).map
      (fun p => strideFromPoint
        (⟨(2 : Int) ^ power, 2 ^ power, 2 ^ power⟩ : Point3) p) =
      cornerStridesSpec (2 ^ power) power := by
    interval_cases power <;> decide
  simp only []
  rw [hcs]
  have hps := partitionArray_spec isEmpty array (2 ^ power) power 1 0 0 0 []
  simp only [Nat.zero_mul, Nat.add_zero, Nat.zero_add, List.nil_append] at hps
  rw [hps]

/-- **C5.** Octree node-map invariant: after `Octree::from_array` on a cube
array of edge `2 ^ power` (`0 < power ≤ 6`), a location code is present in
the node mapping (with its child bitmask as value) iff it is the code of an
octant reached from the root by a path of octant indices, that octant is
non-empty, and its 8-child bitmask is not `0xff`; consequently a fully
occupied cube yields `root_exists = true` and an empty node mapping. -/
theorem c5_node_map_invariant {T : Type} [Inhabited T] (isEmpty : T → Bool)
    (power : Nat) (array : Array3 T) (t : Octree) (h1 : 0 < power)
    (h6 : power ≤ 6)
    (hsh : array.extent.shape =
      (⟨(2 : Int) ^ power, 2 ^ power, 2 ^ power⟩ : Point3))
    (hfa : Octree.fromArray isEmpty power array = some t) :
    (∀ c bm, (c, bm) ∈ t.nodes ↔
      ∃ path : List Nat, path.length + 1 ≤ power ∧ (∀ o ∈ path, o < 8) ∧
        c = codeAppend 1 path ∧
        octantExistsB (localOccB isEmpty array (2 ^ power))
          (power - path.length)
          (pathCorner power path 0 0 0).1 (pathCorner power path 0 0 0).2.1
          (pathCorner power path 0 0 0).2.2 = true ∧
        bm = octantMaskB (childExistsBit (localOccB isEmpty array (2 ^ power))
          (power - path.length - 1)
          (pathCorner power path 0 0 0).1 (pathCorner power path 0 0 0).2.1
          (pathCorner power path 0 0 0).2.2) ∧
        bm ≠ 0xff) ∧
    ((∀ dx dy dz, dx < 2 ^ power → dy < 2 ^ power → dz < 2 ^ power →
        localOccB isEmpty array (2 ^ power) dx dy dz = true) →
      t.nodes = [] ∧ t.root_exists = true) := by
  have h2 := hfa.symm.trans (fromArray_eq isEmpty power array h1 h6 hsh)
  have ht := Option.some.inj h2
  subst ht
  constructor
  · intro c bm
    simp only []
    rw [mem_specEntries]
    constructor
    · rintro ⟨path, hlen, hdig, hc, hbm, hnz, h255⟩
      refine ⟨path, hlen, hdig, hc, ?_, hbm, h255⟩
      have hj : power - path.length - 1 + 1 = power - path.length := by omega
      rw [← hj]
      apply (octantMaskB_ne_zero_iff_octantExists _ _ _ _ _).mp
      rw [← hbm]
      exact hnz
    · rintro ⟨path, hlen, hdig, hc, hex, hbm, h255⟩
      refine ⟨path, hlen, hdig, hc, hbm, ?_, h255⟩
      rw [hbm]
      apply (octantMaskB_ne_zero_iff_octantExists _ _ _ _ _).mpr
      have hj : power - path.length - 1 + 1 = power - path.length := by omega
      rw [hj]
      exact hex
  · intro H
    have hfull := specEntries_full (localOccB isEmpty array (2 ^ power))
      power 0 0 0 1
      (fun dx dy dz a b c => by simpa using H dx dy dz a b c)
    exact ⟨hfull.1, hfull.2⟩

theorem c5_node_map_invariant_witness :
    (∀ c bm, (c, bm) ∈ c5Tree.nodes ↔
      ∃ path : List Nat, path.length + 1 ≤ 1 ∧ (∀ o ∈ path, o < 8) ∧
        c = codeAppend 1 path ∧
        octantExistsB (localOccB (fun v => v == 0) c5Array (2 ^ 1))
          (1 - path.length)
          (pathCorner 1 path 0 0 0).1 (pathCorner 1 path 0 0 0).2.1
          (pathCorner 1 path 0 0 0).2.2 = true ∧
        bm = octantMaskB (childExistsBit
          (localOccB (fun v => v == 0) c5Array (2 ^ 1))
          (1 - path.length - 1)
          (pathCorner 1 path 0 0 0).1 (pathCorner 1 path 0 0 0).2.1
          (pathCorner 1 path 0 0 0).2.2) ∧
        bm ≠ 0xff) ∧
    ((∀ dx dy dz, dx < 2 ^ 1 → dy < 2 ^ 1 → dz < 2 ^ 1 →
        localOccB (fun v => v == 0) c5Array (2 ^ 1) dx dy dz = true) →
      c5Tree.nodes = [] ∧ c5Tree.root_exists = true) :=
  c5_node_map_invariant (fun v => v == 0) 1 c5Array c5Tree (by decide)
    (by decide) (by decide) (by decide)

/-- **C10 (amended).** During `Octree::from_array` with `0 < power ≤ 6`,
the location codes of octants at depth at most 5 — which include every code
used as a node-mapping key, since single-voxel octants are never inserted —
are pairwise distinct and fit in 16 bits without wrapping; consequently the
node mapping built by `from_array` is functional: a location code stored
twice carries the same child bitmask (no node's bitmask is overwritten by a
different node's).  (The unamended claim fails at depth 6: see the
counterexample, where two distinct voxel-level octants at `power = 6` share
a wrapped code.) -/
theorem c10_location_codes_amended {T : Type} [Inhabited T]
    (isEmpty : T → Bool) (power : Nat) (array : Array3 T) (t : Octree)
    (h1 : 0 < power) (h6 : power ≤ 6)
    (hsh : array.extent.shape =
      (⟨(2 : Int) ^ power, 2 ^ power, 2 ^ power⟩ : Point3))
    (hfa : Octree.fromArray isEmpty power array = some t) :
    (∀ p1 p2 : List Nat, (∀ o ∈ p1, o < 8) → (∀ o ∈ p2, o < 8) →
      p1.length ≤ 5 → p2.length ≤ 5 →
      codeOfPath p1 < 2 ^ 16 ∧ (codeOfPath p1 = codeOfPath p2 → p1 = p2)) ∧
    (∀ c bm1 bm2, (c, bm1) ∈ t.nodes → (c, bm2) ∈ t.nodes → bm1 = bm2) := by
  constructor
  · intro p1 p2 hd1 hd2 hl1 hl2
    exact ⟨codeOfPath_lt hd1 hl1,
      fun he => codeOfPath_inj hd1 hd2 hl1 hl2 he⟩
  · have h2 := hfa.symm.trans (fromArray_eq isEmpty power array h1 h6 hsh)
    have ht := Option.some.inj h2
    subst ht
    intro c bm1 bm2 hm1 hm2
    simp only [] at hm1 hm2
    rcases (mem_specEntries _ _ _ _ _ _ _ _).mp hm1 with
      ⟨p1, hlen1, hd1, hc1, hbm1, _, _⟩
    rcases (mem_specEntries _ _ _ _ _ _ _ _).mp hm2 with
      ⟨p2, hlen2, hd2, hc2, hbm2, _, _⟩
    have hcode : codeOfPath p1 = codeOfPath p2 := by
      rw [show codeOfPath p1 = codeAppend 1 p1 from rfl,
        show codeOfPath p2 = codeAppend 1 p2 from rfl, ← hc1, ← hc2]
    have hp : p1 = p2 :=
      codeOfPath_inj hd1 hd2 (by omega) (by omega) hcode
    rw [hbm1, hbm2, hp]

theorem c10_location_codes_amended_witness :
    (∀ p1 p2 : List Nat, (∀ o ∈ p1, o < 8) → (∀ o ∈ p2, o < 8) →
      p1.length ≤ 5 → p2.length ≤ 5 →
      codeOfPath p1 < 2 ^ 16 ∧ (codeOfPath p1 = codeOfPath p2 → p1 = p2)) ∧
    (∀ c bm1 bm2, (c, bm1) ∈ c5Tree.nodes → (c, bm2) ∈ c5Tree.nodes →
      bm1 = bm2) :=
  c10_location_codes_amended (fun v : Nat => v == 0) 1 c5Array c5Tree
    (by decide) (by decide) (by decide) (by decide)

end BuildingBlocks
